import Mathlib

/-!
Verification development for the gocachex cache library.

The Go sources are shallowly embedded: pure fragments become Lean functions,
stateful methods become explicit state-passing functions, Go `int64` values
are modelled as `Int` (with explicit wrapping where overflow matters),
byte slices as `List Nat`, and `time.Time` instants as `Nat` ticks passed in
explicitly wherever the code calls `time.Now()`.  Go maps are modelled as
association lists; wherever the Go code iterates over a map (whose iteration
order is unspecified) the model iterates in list order, which realises one
admissible execution.
-/

namespace GoCacheX

/-- Byte strings (`[]byte` in Go); each element is a byte value `< 256`. -/
abbrev Bytes := List Nat

/-- Cache keys are Go strings; the embedding works with their UTF-8 bytes
(all keys appearing in concrete scenarios are ASCII). -/
abbrev Key := List Nat

/-! ### CRC-32 (IEEE), from Go's `hash/crc32.ChecksumIEEE` -/

/-- One bit-step of the reflected CRC-32 computation with the IEEE
polynomial `0xEDB88320`. -/
def crc32Round (c : Nat) : Nat :=
  if c % 2 = 1 then (c / 2) ^^^ 0xEDB88320 else c / 2

/-- Process one input byte of the CRC-32 computation (8 bit-steps). -/
def crc32Byte (c b : Nat) : Nat :=
  (List.range 8).foldl (fun acc _ => crc32Round acc) (c ^^^ (b % 256))

/-- `crc32.ChecksumIEEE`: CRC-32 of a byte string, IEEE polynomial,
initial value and final XOR `0xFFFFFFFF`.  Result is `< 2^32`. -/
def crc32 (bs : Bytes) : Nat :=
  (bs.foldl crc32Byte 0xFFFFFFFF) ^^^ 0xFFFFFFFF

/-! ### Decimal rendering (`fmt.Sprintf("%d", n)`) and int64 wrapping -/

/-- Digit-accumulating helper for `natDecBytes`; the fuel argument makes
the recursion structural (`fuel ≥ n + 1` always suffices). -/
def natDecBytesAux : Nat → Nat → Bytes → Bytes
  | 0, _, acc => acc
  | fuel + 1, n, acc =>
    if n < 10 then (48 + n) :: acc
    else natDecBytesAux fuel (n / 10) ((48 + n % 10) :: acc)

/-- Decimal digits of a natural number as ASCII bytes (`fmt` `%d` for a
non-negative value). -/
def natDecBytes (n : Nat) : Bytes :=
  natDecBytesAux (n + 1) n []

/-- `fmt.Sprintf("%d", i)` for an `int64` value: optional `-` sign then
decimal digits. -/
def intDecBytes (i : Int) : Bytes :=
  if i < 0 then 45 :: natDecBytes (-i).toNat else natDecBytes i.toNat

/-- Wrap an unbounded integer into the two's-complement `int64` range,
as Go's `int64` addition does on overflow. -/
def wrap64 (i : Int) : Int :=
  ((i + 2 ^ 63) % 2 ^ 64) - 2 ^ 63

/-! ### `encoding/json` unmarshalling into an `int64`

`MemoryBackend.Increment` parses the stored bytes with
`json.Unmarshal(item.value, &current)` where `current` is an `int64`.
That succeeds exactly on: optional JSON whitespace, then either a JSON
number literal with no fraction or exponent part (an optional `-`, then
either a single `0` or a nonzero digit followed by digits), within the
`int64` range, or the literal `null` (per the `encoding/json` contract a
null leaves the target untouched and produces no error, so the
zero-initialised `int64` stays 0), followed only by trailing JSON
whitespace. -/

/-- JSON whitespace bytes: space, tab, newline, carriage return. -/
def isJsonWs (b : Nat) : Bool :=
  b = 32 || b = 9 || b = 10 || b = 13

/-- ASCII decimal digit. -/
def isDigit (b : Nat) : Bool :=
  48 ≤ b && b ≤ 57

/-- Numeric value of a list of ASCII digit bytes. -/
def digitsVal (ds : Bytes) : Nat :=
  ds.foldl (fun a b => a * 10 + (b - 48)) 0

/-- `json.Unmarshal(bs, &x)` for `x : int64`: `some v` on success,
`none` when unmarshalling fails for any reason (syntax error, non-integer
number, non-number value other than `null`, out of range).  A JSON `null`
is a documented no-op on any non-pointer target: it produces no error and
leaves the zero-initialised `int64` at 0, so it reads as `some 0`. -/
def jsonParseInt64 (bs : Bytes) : Option Int :=
  let s1 := bs.dropWhile isJsonWs
  match s1 with
  | 110 :: 117 :: 108 :: 108 :: rest =>
    -- the literal `null` (bytes of "null"), possibly followed by whitespace
    if rest.all isJsonWs then some 0 else none
  | _ =>
  let (neg, s2) : Bool × Bytes :=
    match s1 with
    | 45 :: r => (true, r)
    | _ => (false, s1)
  match s2 with
  | [] => none
  | d :: rest =>
    if d = 48 then
      -- a leading `0` must be the whole integer part (JSON forbids leading zeros)
      if rest.all isJsonWs then some 0 else none
    else if 49 ≤ d ∧ d ≤ 57 then
      let digits := (d :: rest).takeWhile isDigit
      let tail := (d :: rest).dropWhile isDigit
      if tail.all isJsonWs then
        let v : Int := (digitsVal digits : Nat)
        let vi := if neg then -v else v
        if -(2 ^ 63) ≤ vi ∧ vi ≤ 2 ^ 63 - 1 then some vi else none
      else none
    else none

/-- Modelled from the spec: "parse the stored value as a base-10 integer" –
an optional sign followed by one or more decimal digits, the reading of a
base-10 integer used by the specification (leading zeros allowed, as in
`strconv.ParseInt(s, 10, 64)` without JSON's grammar restrictions). -/
def specParseBase10 (bs : Bytes) : Option Int :=
  let (neg, s) : Bool × Bytes :=
    match bs with
    | 45 :: r => (true, r)
    | 43 :: r => (false, r)
    | _ => (false, bs)
  if s ≠ [] ∧ s.all isDigit then
    let v : Int := (digitsVal s : Nat)
    some (if neg then -v else v)
  else none

/-- Decidable equality for `Except`, so concrete operation results can be
checked by `decide`. -/
instance [DecidableEq ε] [DecidableEq α] : DecidableEq (Except ε α) := fun x y =>
  match x, y with
  | .ok a, .ok b =>
    match decEq a b with
    | isTrue h => isTrue (h ▸ rfl)
    | isFalse h => isFalse (fun hh => h (Except.ok.inj hh))
  | .error a, .error b =>
    match decEq a b with
    | isTrue h => isTrue (h ▸ rfl)
    | isFalse h => isFalse (fun hh => h (Except.error.inj hh))
  | .ok _, .error _ => isFalse (fun hh => Except.noConfusion hh)
  | .error _, .ok _ => isFalse (fun hh => Except.noConfusion hh)

/-! ### Association-list model of Go maps -/

/-- First value bound to `k`, if any (`m[k]` presence lookup). -/
def assocFind [DecidableEq κ] (l : List (κ × α)) (k : κ) : Option α :=
  match l with
  | [] => none
  | (k', v) :: t => if k' = k then some v else assocFind t k

/-- `m[k] = v`: replace the binding of `k` if present, otherwise append a
new binding (Go map insertion; list position only fixes the modelled
iteration order). -/
def assocSet [DecidableEq κ] (l : List (κ × α)) (k : κ) (v : α) : List (κ × α) :=
  if (assocFind l k).isSome then
    l.map (fun kv => if kv.1 = k then (k, v) else kv)
  else l ++ [(k, v)]

/-- `delete(m, k)`: drop every binding of `k`. -/
def assocErase [DecidableEq κ] (l : List (κ × α)) (k : κ) : List (κ × α) :=
  l.filter (fun kv => kv.1 ≠ k)

/-! ### The in-memory backend (`pkg/backends/memory.go`, `MemoryBackend`)

`time.Time` instants are `Nat` ticks (nanoseconds); the zero `time.Time`
used for "no expiry" is `Option.none`.  `time.Duration` values are `Int`
nanosecond counts, as Go's `time.Duration` is an `int64`. -/

/-- `memoryItem`: value bytes, expiry instant (`none` = zero time, no
expiry), last-access instant, access counter. -/
structure MemoryItem where
  value : Bytes
  expireTime : Option Nat
  accessTime : Nat
  accessCount : Int
  deriving Repr, DecidableEq

/-- `MemoryBackend` together with its `memoryStats` and the relevant
`config.MemoryConfig` fields.  The stats counters are `int64`s touched only
by `atomic.AddInt64(_, 1)`, modelled as `Nat`s. -/
structure MemoryBackend where
  data : List (Key × MemoryItem)
  hits : Nat
  misses : Nat
  sets : Nat
  deletes : Nat
  evictions : Nat
  startTime : Nat
  currentSize : Int
  maxSize : Int
  maxKeys : Int
  defaultTTL : Int
  evictionPolicy : String
  deriving Repr, DecidableEq

/-- `time.Now().After(item.expireTime)` guarded by `!IsZero`: an item is
expired when it has an expiry instant strictly before `now`. -/
def MemoryItem.expired (item : MemoryItem) (now : Nat) : Bool :=
  match item.expireTime with
  | none => false
  | some t => now > t

/-- `NewMemoryBackend` state for a configuration (after `parseSize` on
`MaxSize`), with an empty table and zeroed stats. -/
def newMemoryBackend (maxSize maxKeys defaultTTL : Int) (policy : String)
    (startTime : Nat) : MemoryBackend :=
  { data := [], hits := 0, misses := 0, sets := 0, deletes := 0,
    evictions := 0, startTime := startTime, currentSize := 0,
    maxSize := maxSize, maxKeys := maxKeys, defaultTTL := defaultTTL,
    evictionPolicy := policy }

/-- `MemoryBackend.Get`: miss on absence; lazily delete and miss on
expiry (without touching `currentSize`); on a hit refresh the access
time/counter and bump `hits`. -/
def memGet (m : MemoryBackend) (now : Nat) (key : Key) :
    Except String Bytes × MemoryBackend :=
  match assocFind m.data key with
  | none => (.error "key not found", { m with misses := m.misses + 1 })
  | some item =>
    if item.expired now then
      (.error "key expired",
       { m with data := assocErase m.data key, misses := m.misses + 1 })
    else
      (.ok item.value,
       { m with
          data := assocSet m.data key
            { item with accessTime := now, accessCount := item.accessCount + 1 },
          hits := m.hits + 1 })

/-- The body of `evictLRU`'s scan loop: keep the entry with the oldest
access time, where an empty `oldestKey` accumulator means "nothing seen
yet". -/
def lruScanStep (acc : Key × Nat) (kv : Key × MemoryItem) : Key × Nat :=
  if acc.1 = [] || kv.2.accessTime < acc.2 then (kv.1, kv.2.accessTime) else acc

/-- `MemoryBackend.evictLRU`: full scan for the entry with the oldest
access time (`oldestKey` starts as the empty string, which doubles as the
"nothing found" sentinel); evict it if the sentinel was replaced. -/
def evictLRU (m : MemoryBackend) : MemoryBackend :=
  let scan := m.data.foldl lruScanStep ([], 0)
  if scan.1 ≠ [] then
    match assocFind m.data scan.1 with
    | some item =>
      { m with currentSize := m.currentSize - item.value.length,
               data := assocErase m.data scan.1,
               evictions := m.evictions + 1 }
    | none => m
  else m

/-- The body of `evictLFU`'s scan loop. -/
def lfuScanStep (acc : Key × Int) (kv : Key × MemoryItem) : Key × Int :=
  if acc.2 = -1 || kv.2.accessCount < acc.2 then (kv.1, kv.2.accessCount) else acc

/-- `MemoryBackend.evictLFU`: full scan for the entry with the smallest
access count (sentinel `minAccess = -1`, `targetKey = ""`). -/
def evictLFU (m : MemoryBackend) : MemoryBackend :=
  let scan := m.data.foldl lfuScanStep ([], -1)
  if scan.1 ≠ [] then
    match assocFind m.data scan.1 with
    | some item =>
      { m with currentSize := m.currentSize - item.value.length,
               data := assocErase m.data scan.1,
               evictions := m.evictions + 1 }
    | none => m
  else m

/-- `MemoryBackend.evictRandom`: remove the first entry the map range
yields (the model takes the head of the association list). -/
def evictRandom (m : MemoryBackend) : MemoryBackend :=
  match m.data with
  | [] => m
  | (k, item) :: _ =>
    { m with currentSize := m.currentSize - item.value.length,
             data := assocErase m.data k,
             evictions := m.evictions + 1 }

set_option linter.unusedVariables false in
/-- `MemoryBackend.evictItems`: dispatch on the configured policy
(default LRU).  The `sizeToFree` argument is accepted and ignored, exactly
as in the source. -/
def evictItems (m : MemoryBackend) (sizeToFree : Int) : MemoryBackend :=
  match m.evictionPolicy with
  | "lru" => evictLRU m
  | "lfu" => evictLFU m
  | "random" => evictRandom m
  | _ => evictLRU m

/-- `MemoryBackend.Set`: compute the expiry from the call TTL or the
configured default, evict once by policy if the projected size exceeds
`maxSize`, evict once by LRU if the key count has reached `MaxKeys`,
adjust `currentSize` by the size delta, store, and bump `sets`. -/
def memSet (m : MemoryBackend) (now : Nat) (key : Key) (value : Bytes)
    (ttl : Int) : MemoryBackend :=
  let expireTime : Option Nat :=
    if ttl > 0 then some (now + ttl.toNat)
    else if m.defaultTTL > 0 then some (now + m.defaultTTL.toNat)
    else none
  let item : MemoryItem :=
    { value := value, expireTime := expireTime, accessTime := now, accessCount := 0 }
  let newSize := m.currentSize + value.length
  let m1 := if m.maxSize > 0 ∧ newSize > m.maxSize then evictItems m (newSize - m.maxSize) else m
  let m2 := if m.maxKeys > 0 ∧ (m1.data.length : Int) ≥ m.maxKeys then evictLRU m1 else m1
  let m3 :=
    match assocFind m2.data key with
    | some oldItem => { m2 with currentSize := m2.currentSize - oldItem.value.length }
    | none => m2
  { m3 with currentSize := m3.currentSize + value.length,
            data := assocSet m3.data key item,
            sets := m3.sets + 1 }

/-- `MemoryBackend.Delete`: remove the entry if present, subtracting its
size and bumping `deletes`; never an error. -/
def memDelete (m : MemoryBackend) (key : Key) : MemoryBackend :=
  match assocFind m.data key with
  | some item =>
    { m with currentSize := m.currentSize - item.value.length,
             data := assocErase m.data key,
             deletes := m.deletes + 1 }
  | none => m

/-- `MemoryBackend.Exists`: false on absence; lazily delete and report
false on expiry (again without touching `currentSize`). -/
def memExists (m : MemoryBackend) (now : Nat) (key : Key) :
    Bool × MemoryBackend :=
  match assocFind m.data key with
  | none => (false, m)
  | some item =>
    if item.expired now then
      (false, { m with data := assocErase m.data key })
    else (true, m)

/-- `MemoryBackend.Increment`: absent key ⇒ create an item holding the
decimal rendering of `delta` (no expiry, no size accounting) and return
`delta`; otherwise `json.Unmarshal` the stored bytes into an `int64`
(failure ⇒ `value is not a number`), add `delta` with `int64` wrapping,
store the decimal rendering back and return the sum. -/
def memIncrement (m : MemoryBackend) (now : Nat) (key : Key) (delta : Int) :
    Except String Int × MemoryBackend :=
  match assocFind m.data key with
  | none =>
    (.ok delta,
     { m with data := m.data ++
        [(key, { value := intDecBytes delta, expireTime := none,
                 accessTime := now, accessCount := 0 })] })
  | some item =>
    match jsonParseInt64 item.value with
    | none => (.error "value is not a number", m)
    | some current =>
      let newValue := wrap64 (current + delta)
      let item' := { item with value := intDecBytes newValue, accessTime := now }
      (.ok newValue, { m with data := assocSet m.data key item' })

/-- `MemoryBackend.Decrement` delegates to `Increment` with the negated
delta (`int64` negation). -/
def memDecrement (m : MemoryBackend) (now : Nat) (key : Key) (delta : Int) :
    Except String Int × MemoryBackend :=
  memIncrement m now key (wrap64 (-delta))

/-- `MemoryBackend.Expire`: error on absence; positive TTL sets the expiry
instant, otherwise the expiry is cleared to the zero time. -/
def memExpire (m : MemoryBackend) (now : Nat) (key : Key) (ttl : Int) :
    Except String Unit × MemoryBackend :=
  match assocFind m.data key with
  | none => (.error "key not found", m)
  | some item =>
    let item' :=
      if ttl > 0 then { item with expireTime := some (now + ttl.toNat) }
      else { item with expireTime := none }
    (.ok (), { m with data := assocSet m.data key item' })

/-- `MemoryBackend.TTL`: error on absence; `-1` without expiry; clamped
remaining time otherwise.  Read-only. -/
def memTTL (m : MemoryBackend) (now : Nat) (key : Key) :
    Except String Int × MemoryBackend :=
  match assocFind m.data key with
  | none => (.error "key not found", m)
  | some item =>
    match item.expireTime with
    | none => (.ok (-1), m)
    | some t =>
      let remaining : Int := (t : Int) - (now : Int)
      (.ok (if remaining < 0 then 0 else remaining), m)

/-- `MemoryBackend.Clear`: fresh table, `currentSize` 0.  The stats
counters are left untouched. -/
def memClear (m : MemoryBackend) : MemoryBackend :=
  { m with data := [], currentSize := 0 }

/-- `MemoryBackend.cleanupExpired` (the expiry sweep body): remove every
expired entry, subtracting its size. -/
def memCleanupExpired (m : MemoryBackend) (now : Nat) : MemoryBackend :=
  m.data.foldl
    (fun acc kv =>
      if kv.2.expired now then
        { acc with currentSize := acc.currentSize - kv.2.value.length,
                   data := assocErase acc.data kv.1 }
      else acc)
    m

/-- `MemoryBackend.GetMulti`: per-key `Get`, keeping only the successes. -/
def memGetMulti (m : MemoryBackend) (now : Nat) (keys : List Key) :
    List (Key × Bytes) × MemoryBackend :=
  keys.foldl
    (fun (acc : List (Key × Bytes) × MemoryBackend) key =>
      match memGet acc.2 now key with
      | (.ok v, m') => (acc.1 ++ [(key, v)], m')
      | (.error _, m') => (acc.1, m'))
    ([], m)

/-- `MemoryBackend.SetMulti`: per-item `Set` (which never fails). -/
def memSetMulti (m : MemoryBackend) (now : Nat)
    (items : List (Key × Bytes)) (ttl : Int) : MemoryBackend :=
  items.foldl (fun acc kv => memSet acc now kv.1 kv.2 ttl) m

/-- `MemoryBackend.DeleteMulti`: per-key `Delete` (which never fails). -/
def memDeleteMulti (m : MemoryBackend) (keys : List Key) : MemoryBackend :=
  keys.foldl (fun acc key => memDelete acc key) m

/-- The `Stats` record produced by `MemoryBackend.Stats`. -/
structure Stats where
  hits : Nat
  misses : Nat
  sets : Nat
  deletes : Nat
  evictions : Nat
  keyCount : Nat
  memoryUsage : Int
  uptime : Nat
  deriving Repr, DecidableEq

/-- `MemoryBackend.Stats`: counters plus the key-count/memory gauges and
uptime in seconds.  Read-only. -/
def memStats (m : MemoryBackend) (now : Nat) : Stats :=
  { hits := m.hits, misses := m.misses, sets := m.sets,
    deletes := m.deletes, evictions := m.evictions,
    keyCount := m.data.length, memoryUsage := m.currentSize,
    uptime := (now - m.startTime) / 1000000000 }

/-- Sum of the value sizes of the live (present and non-expired) entries:
the quantity the spec's memory-usage invariant tracks. -/
def liveSize (m : MemoryBackend) (now : Nat) : Int :=
  (m.data.filter (fun kv => ¬ kv.2.expired now)).foldl
    (fun acc kv => acc + kv.2.value.length) 0

/-! ### The sharding package (`pkg/sharding/sharding.go`)

Backends held by a sharder are opaque to the routing logic; the model
identifies them by `Nat` tags.  The ring map (`map[uint32]int`) is an
association list from hash position to shard index; a Go map read of an
absent key yields the zero value `0`. -/

/-- Ring map read returning presence information. -/
def ringGet? (r : List (Nat × Nat)) (k : Nat) : Option Nat :=
  assocFind r k

/-- Go map read `m[k]` on the ring: value if present, zero value `0`
otherwise. -/
def ringGet (r : List (Nat × Nat)) (k : Nat) : Nat :=
  (assocFind r k).getD 0

/-- Go map write `m[k] = v` on the ring. -/
def ringSet (r : List (Nat × Nat)) (k v : Nat) : List (Nat × Nat) :=
  assocSet r k v

/-- Go map delete `delete(m, k)` on the ring. -/
def ringDel (r : List (Nat × Nat)) (k : Nat) : List (Nat × Nat) :=
  assocErase r k

/-- The byte string `fmt.Sprintf("shard-%d-%d", shardIndex, i)`
(`"shard-"` is `[115, 104, 97, 114, 100, 45]`, `'-'` is `45`). -/
def virtualNodeKey (shardIndex i : Nat) : Bytes :=
  [115, 104, 97, 114, 100, 45] ++ natDecBytes shardIndex ++ [45] ++ natDecBytes i

/-- `ConsistentHashSharder`: shard backends, replica count, the ring map,
and the sorted list of ring positions. -/
structure ConsistentHashSharder where
  shards : List Nat
  replicas : Int
  ring : List (Nat × Nat)
  keys : List Nat
  deriving Repr, DecidableEq

/-- `NewConsistentHashSharder`. -/
def newConsistentHashSharder (replicas : Int) : ConsistentHashSharder :=
  { shards := [], replicas := replicas, ring := [], keys := [] }

/-- The hashes of the virtual-node labels a shard of index `shardIndex`
contributes (`c.hashKey(fmt.Sprintf("shard-%d-%d", shardIndex, i))` for
`0 ≤ i < replicas`). -/
def virtualHashes (replicas : Int) (shardIndex : Nat) : List Nat :=
  (List.range replicas.toNat).map (fun i => crc32 (virtualNodeKey shardIndex i))

/-- `ConsistentHashSharder.AddShard`: append the backend, insert the new
shard's virtual positions into the ring, and re-sort the position list.
Go's `sort.Slice` with `<` on `uint32` values produces the unique sorted
arrangement of the multiset, which `List.insertionSort` computes. -/
def chAddShard (c : ConsistentHashSharder) (backend : Nat) : ConsistentHashSharder :=
  let shardIndex := c.shards.length
  let newHashes := virtualHashes c.replicas shardIndex
  { shards := c.shards ++ [backend],
    replicas := c.replicas,
    ring := newHashes.foldl (fun r h => ringSet r h shardIndex) c.ring,
    keys := List.insertionSort (· ≤ ·) (c.keys ++ newHashes) }

/-- The body of `RemoveShard`'s first loop: keep a position whose current
ring entry does not point at `index`, otherwise drop it and delete its
ring entry (the loop reads the map it is mutating). -/
def removeStep (index : Int) (acc : List Nat × List (Nat × Nat)) (h : Nat) :
    List Nat × List (Nat × Nat) :=
  if (ringGet acc.2 h : Int) ≠ index then (acc.1 ++ [h], acc.2)
  else (acc.1, ringDel acc.2 h)

/-- `ConsistentHashSharder.RemoveShard`: reject an out-of-range index;
drop the removed shard's positions from `keys` while deleting them from
the ring (the loop reads the same map it mutates: a position whose ring
entry was already deleted reads as `0`); renumber remaining ring values
greater than `index`; splice the backend out of the shard list. -/
def chRemoveShard (c : ConsistentHashSharder) (index : Int) :
    Except String ConsistentHashSharder :=
  if index < 0 ∨ index ≥ (c.shards.length : Int) then
    .error "invalid shard index"
  else
    let step := c.keys.foldl (removeStep index) ([], c.ring)
    let newRing := step.2.map
      (fun kv => if (kv.2 : Int) > index then (kv.1, kv.2 - 1) else kv)
    .ok { shards := c.shards.take index.toNat ++ c.shards.drop (index.toNat + 1),
          replicas := c.replicas,
          ring := newRing,
          keys := step.1 }

/-- `sort.Search(len(keys), keys[i] >= hash)`: the least index whose
position is `≥ hash` (`len keys` when none is).  On the sorted position
list the binary search coincides with the first matching index. -/
def ringSearch (keys : List Nat) (hash : Nat) : Nat :=
  keys.findIdx (fun k => hash ≤ k)

/-- `ConsistentHashSharder.GetShardIndex`: `-1` on an empty shard set,
`0` for a single shard, otherwise the ring entry at the first position
`≥ crc32(key)`, wrapping to the first position.  (With at least two
shards Go indexes `c.keys[idx]`, which panics on an empty position list;
the model reads position `0` there.) -/
def chGetShardIndex (c : ConsistentHashSharder) (key : Key) : Int :=
  if c.shards.length = 0 then -1
  else if c.shards.length = 1 then 0
  else
    let hash := crc32 key
    let idx := ringSearch c.keys hash
    let idx := if idx = c.keys.length then 0 else idx
    (ringGet c.ring (c.keys.getD idx 0) : Int)

/-- `ConsistentHashSharder.GetShard`: same lookup, returning the backend
(`none` models Go's `nil` for an empty shard set; the final slice index
is an `Option` lookup). -/
def chGetShard (c : ConsistentHashSharder) (key : Key) : Option Nat :=
  if c.shards.length = 0 then none
  else if c.shards.length = 1 then c.shards.get? 0
  else
    let hash := crc32 key
    let idx := ringSearch c.keys hash
    let idx := if idx = c.keys.length then 0 else idx
    c.shards.get? (ringGet c.ring (c.keys.getD idx 0))

/-- `HashSharder` (MD5-prefix modulo sharding; its per-key lookup is not
needed by any routing claim, since the façade never consults it). -/
structure HashSharder where
  shards : List Nat
  deriving Repr, DecidableEq

/-- `RangeSharder`: shards with alphabetical boundary characters. -/
structure RangeSharder where
  shards : List Nat
  ranges : List Nat
  deriving Repr, DecidableEq

/-- `RangeSharder.AddShard`: append the backend and the boundary
`'a' + len(shards) - 1`. -/
def rangeAddShard (r : RangeSharder) (backend : Nat) : RangeSharder :=
  { shards := r.shards ++ [backend],
    ranges := r.ranges ++ [97 + r.shards.length] }

/-- A constructed sharder of any of the three algorithms. -/
inductive Sharder where
  | consistent (c : ConsistentHashSharder)
  | hash (h : HashSharder)
  | range (r : RangeSharder)
  deriving Repr, DecidableEq

/-- `sharding.NewSharder`: `"consistent"` (replicas defaulting to 100),
`"hash"`, `"range"`, anything else ⇒ consistent with 100 replicas. -/
def newSharder (algorithm : String) (replicas : Int) : Sharder :=
  match algorithm with
  | "consistent" =>
    .consistent (newConsistentHashSharder (if replicas ≤ 0 then 100 else replicas))
  | "hash" => .hash { shards := [] }
  | "range" => .range { shards := [], ranges := [] }
  | _ => .consistent (newConsistentHashSharder 100)

/-- `Sharder.AddShard` across the three implementations. -/
def sharderAddShard (s : Sharder) (backend : Nat) : Sharder :=
  match s with
  | .consistent c => .consistent (chAddShard c backend)
  | .hash h => .hash { shards := h.shards ++ [backend] }
  | .range r => .range (rangeAddShard r backend)

/-- `sharding.ShardKey(key, shardCount)`: `0` for a non-positive count,
otherwise `crc32(key) mod shardCount`. -/
def shardKeyFn (key : Key) (shardCount : Int) : Nat :=
  if shardCount ≤ 0 then 0
  else crc32 key % shardCount.toNat

/-! ### Façade sharding state (`cache_helpers.go`) -/

/-- The sharding-related fields of `CacheClient`: the backend list
`c.shards` and the `Sharder` built by `initSharding` (which per-key
routing never consults). -/
structure ClientSharding where
  shards : List Nat
  sharder : Sharder
  deriving Repr, DecidableEq

/-- `CacheClient.initSharding`: build the configured sharder, then create
`shardCount` backends (3 when the configured count is non-positive),
appending each to `c.shards` and adding it to the sharder. -/
def initSharding (algorithm : String) (replicas shardsCfg : Int) : ClientSharding :=
  let shardCount := if shardsCfg ≤ 0 then 3 else shardsCfg
  (List.range shardCount.toNat).foldl
    (fun (c : ClientSharding) i =>
      { shards := c.shards ++ [i], sharder := sharderAddShard c.sharder i })
    { shards := [], sharder := newSharder algorithm replicas }

/-- `CacheClient.getShard`: `nil` for no shards, the sole shard for one,
otherwise `c.shards[sharding.ShardKey(key, len(c.shards))]` — plain
CRC-32 modulo routing, bypassing the constructed sharder. -/
def clientGetShard (c : ClientSharding) (key : Key) : Option Nat :=
  if c.shards.length = 0 then none
  else if c.shards.length = 1 then c.shards.get? 0
  else c.shards.get? (shardKeyFn key (c.shards.length : Int))

/-- Shard selected by `getDistributed` (`shard := c.getShard(key)`). -/
def getDistributedRoute (c : ClientSharding) (key : Key) : Option Nat :=
  clientGetShard c key

/-- Shard selected by `setDistributed`. -/
def setDistributedRoute (c : ClientSharding) (key : Key) : Option Nat :=
  clientGetShard c key

/-- Shard selected by `deleteDistributed`. -/
def deleteDistributedRoute (c : ClientSharding) (key : Key) : Option Nat :=
  clientGetShard c key

/-- Shard selected by `existsDistributed`. -/
def existsDistributedRoute (c : ClientSharding) (key : Key) : Option Nat :=
  clientGetShard c key

/-- Shard selected by `CacheClient.Increment` in distributed mode
(`shard := c.getShard(key)` in `cache.go`). -/
def incrementDistributedRoute (c : ClientSharding) (key : Key) : Option Nat :=
  clientGetShard c key

/-- Shard selected by `CacheClient.Decrement` in distributed mode. -/
def decrementDistributedRoute (c : ClientSharding) (key : Key) : Option Nat :=
  clientGetShard c key

/-! ### The hierarchical tier controller (`cache.go`, `cache_helpers.go`)

The two tiers are full `Cache` instances.  The composition logic is
modelled generically over the tier operations (state types `σ₁`, `σ₂` and
value type `α`), matching the `Cache` interface the code dispatches
through; the concrete in-memory tier instantiates them at the byte level. -/

/-- The operations of a tier (`Cache` instance) the hierarchical `Get`
path uses, with explicit state passing. -/
structure Tier (σ : Type) (α : Type) where
  get : σ → Key → Except String α × σ
  set : σ → Key → α → Int → Except String Unit × σ

/-- `5 * time.Minute` in nanoseconds (`time.Duration` is `int64`
nanoseconds). -/
def fiveMinutes : Int := 5 * 60 * 1000000000

/-- `CacheClient.getHierarchical`: L1 first; on an L1 miss consult L2; on
an L2 hit promote into L1 with the configured L1 TTL (5 minutes when the
configured TTL is 0), discarding any promotion error, and return the L2
value. -/
def getHierarchical (l1TTLConfig : Int) (t1 : Tier σ₁ α) (t2 : Tier σ₂ α)
    (s1 : σ₁) (s2 : σ₂) (key : Key) : Except String α × σ₁ × σ₂ :=
  match t1.get s1 key with
  | (.ok v, s1') => (.ok v, s1', s2)
  | (.error _, s1') =>
    match t2.get s2 key with
    | (.error e, s2') => (.error e, s1', s2')
    | (.ok v, s2') =>
      let l1TTL := if l1TTLConfig = 0 then fiveMinutes else l1TTLConfig
      let (_, s1'') := t1.set s1' key v l1TTL
      (.ok v, s1'', s2')

/-- An in-memory tier at the backend byte level (an L1/L2 configured with
the memory backend; the serializer applied by the façade around the
backend is a byte codec shared by both tiers). -/
def memTier (now : Nat) : Tier MemoryBackend Bytes :=
  { get := fun m key => memGet m now key,
    set := fun m key v ttl => (.ok (), memSet m now key v ttl) }

/-- `CacheClient.Health` in hierarchical mode, instrumented with the list
of tier calls made: L1 first, returning its error without consulting L2;
otherwise L2's result. -/
def healthHierarchical (l1Health l2Health : Except String Unit) :
    Except String Unit × List String :=
  match l1Health with
  | .error e => (.error e, ["L1.Health"])
  | .ok _ => (l2Health, ["L1.Health", "L2.Health"])

/-- Render `fmt.Errorf("errors closing cache: %v", errors)` (Go formats
an error slice as the messages between brackets, space-separated). -/
def closeErrorsMessage (errs : List String) : String :=
  "errors closing cache: [" ++ String.intercalate " " errs ++ "]"

/-- The error messages contributed by one close result. -/
def errOf (r : Except String Unit) : List String :=
  match r with
  | .ok _ => []
  | .error e => [e]

/-- `CacheClient.Close` in hierarchical mode (where `c.backend` is `nil`:
`New` returns right after `initHierarchicalCache`), instrumented with the
list of calls made: close L1, close L2 — both unconditionally — collect
the errors, and fail with the combined message when any occurred. -/
def closeHierarchical (l1Close l2Close : Except String Unit) :
    Except String Unit × List String :=
  let errs := errOf l1Close ++ errOf l2Close
  let result : Except String Unit :=
    if errs.length > 0 then .error (closeErrorsMessage errs) else .ok ()
  (result, ["L1.Close", "L2.Close"])

/-! ### Façade `Expire`/`TTL` (`cache.go`) -/

/-- The mode flags of a validated configuration. -/
structure FacadeMode where
  hierarchical : Bool
  distributed : Bool
  deriving Repr, DecidableEq

/-- The cache state a `CacheClient` owns: the single backend, the two
tiers, and the shard backends (all modelled as memory backends). -/
structure ClientState where
  backend : MemoryBackend
  l1 : MemoryBackend
  l2 : MemoryBackend
  shards : List MemoryBackend
  deriving Repr, DecidableEq

/-- `CacheClient.Expire`: unsupported under hierarchical or distributed
mode; otherwise delegate to the backend. -/
def facadeExpire (mode : FacadeMode) (st : ClientState) (now : Nat)
    (key : Key) (ttl : Int) : Except String Unit × ClientState :=
  if mode.hierarchical || mode.distributed then
    (.error "expire operation not supported in hierarchical/distributed mode", st)
  else
    let (r, b') := memExpire st.backend now key ttl
    (r, { st with backend := b' })

/-- `CacheClient.TTL`: unsupported under hierarchical or distributed
mode; otherwise delegate to the backend. -/
def facadeTTL (mode : FacadeMode) (st : ClientState) (now : Nat)
    (key : Key) : Except String Int × ClientState :=
  if mode.hierarchical || mode.distributed then
    (.error "ttl operation not supported in hierarchical/distributed mode", st)
  else
    let (r, b') := memTTL st.backend now key
    (r, { st with backend := b' })

/-! ## Theorems -/

/-! ### C1: memory-usage accounting -/

/-- A fresh store with no limits and an LRU policy, as produced by
`NewMemoryBackend` for an empty `MaxSize`. -/
def freshStore : MemoryBackend := newMemoryBackend 0 0 0 "lru" 0

/-- The store after `Set("a", 3 bytes, ttl 1)` at tick 0: `currentSize`
is 3 and the entry expires at tick 1. -/
def c1AfterSet : MemoryBackend := memSet freshStore 0 [97] [1, 2, 3] 1

/-- C1: the reported memory usage does not equal the live entry sizes.
`Increment` on an absent key creates a 1-byte entry while `currentSize`
stays 0, and `Get` of an expired entry lazily deletes it without
subtracting its size, leaving `currentSize` at 3 over an empty table. -/
theorem memoryUsage_invariant_violated :
    (memIncrement freshStore 0 [107] 5).2.currentSize = 0 ∧
    liveSize (memIncrement freshStore 0 [107] 5).2 0 = 1 ∧
    (memGet c1AfterSet 5 [97]).2.data = [] ∧
    (memGet c1AfterSet 5 [97]).2.currentSize = 3 ∧
    liveSize (memGet c1AfterSet 5 [97]).2 5 = 0 := by
  decide

/-! ### C2: eviction until the memory limit is respected -/

/-- A store with `maxSize = 10` bytes, LRU policy, no key limit. -/
def c2Store : MemoryBackend := newMemoryBackend 10 0 0 "lru" 0

/-- Five 2-byte entries `a` … `e` set at ticks 0 … 4, filling the store
to exactly its 10-byte limit. -/
def c2Full : MemoryBackend :=
  memSet (memSet (memSet (memSet (memSet c2Store 0 [97] [0, 0] 0)
    1 [98] [0, 0] 0) 2 [99] [0, 0] 0) 3 [100] [0, 0] 0) 4 [101] [0, 0] 0

/-- C2: `Set` of a 10-byte value (which itself fits the 10-byte maximum)
into the full store evicts only one 2-byte entry — `evictItems` ignores
its `sizeToFree` argument — leaving the recorded usage at 18 > 10. -/
theorem set_leaves_usage_above_maxSize :
    c2Full.currentSize = 10 ∧
    c2Full.maxSize = 10 ∧
    (memSet c2Full 5 [102] [9, 9, 9, 9, 9, 9, 9, 9, 9, 9] 0).currentSize = 18 ∧
    (memSet c2Full 5 [102] [9, 9, 9, 9, 9, 9, 9, 9, 9, 9] 0).evictions = 1 := by
  decide

/-! ### C3: hierarchical Health and Close tier attempts -/

/-- C3 counterexample: when L1's `Health` fails, hierarchical `Health`
returns that error having called only L1 — L2's `Health` is not invoked,
contrary to the claim that both tiers are always attempted. -/
theorem health_skips_l2_when_l1_fails :
    healthHierarchical (.error "l1 unhealthy") (.ok ())
      = (.error "l1 unhealthy", ["L1.Health"]) := by
  decide

/-- C3 amended: hierarchical `Close` always attempts both tiers and wraps
every collected error into one combined error (not the first error
verbatim), while hierarchical `Health` short-circuits: an L1 failure is
returned as-is without invoking L2, and only when L1 succeeds is L2
consulted (and its result returned). -/
theorem close_attempts_both_tiers_health_short_circuits :
    (∀ r1 r2 : Except String Unit,
      (closeHierarchical r1 r2).2 = ["L1.Close", "L2.Close"]) ∧
    (∀ r2 : Except String Unit,
      closeHierarchical (.ok ()) r2
        = ((match r2 with
            | .ok _ => .ok ()
            | .error e => .error (closeErrorsMessage [e])),
           ["L1.Close", "L2.Close"])) ∧
    (∀ (e1 : String) (r2 : Except String Unit),
      closeHierarchical (.error e1) r2
        = (.error (closeErrorsMessage (e1 :: errOf r2)), ["L1.Close", "L2.Close"])) ∧
    (∀ (e : String) (r2 : Except String Unit),
      healthHierarchical (.error e) r2 = (.error e, ["L1.Health"])) ∧
    (∀ r2 : Except String Unit,
      healthHierarchical (.ok ()) r2 = (r2, ["L1.Health", "L2.Health"])) := by
  refine ⟨fun r1 r2 => ?_, fun r2 => ?_, fun e1 r2 => ?_, fun e r2 => rfl, fun r2 => rfl⟩
  · cases r1 <;> cases r2 <;> rfl
  · cases r2 <;> rfl
  · cases r2 <;> rfl

/-! ### C5: consistent-hash Add/Remove restoration -/

/-- The C5 counterexample run (replicas = 1).  Backends 10, 11, 12 are
added, shard 0 is removed (renumbering 11 → index 0, 12 → index 1, whose
virtual positions still hash the labels `shard-1-0` and `shard-2-0`).
Adding backend 13 reuses label `shard-2-0`, overwriting shard 12's only
ring entry; removing the new shard then strips that position, so key
`"c"` reroutes from shard index 1 to 0. -/
def c5Scenario : Except String (Int × Int) := do
  let s3 := chAddShard (chAddShard (chAddShard (newConsistentHashSharder 1) 10) 11) 12
  let s4 ← chRemoveShard s3 0
  let s5 := chAddShard s4 13
  let s6 ← chRemoveShard s5 2
  pure (chGetShardIndex s4 [99], chGetShardIndex s6 [99])

set_option maxRecDepth 8000 in
/-- C5 counterexample: a ring state on which `AddShard` followed by
`RemoveShard` of that same shard does not restore `GetShardIndex`: key
`"c"` routes to shard index 1 before the add and to 0 after the
add/remove pair. -/
theorem addShard_removeShard_does_not_restore :
    c5Scenario = .ok (1, 0) := by
  decide

/-! ### C6: the max-key bound -/

/-- A store with `MaxKeys = 1` and no memory limit. -/
def c6Store : MemoryBackend := newMemoryBackend 0 1 0 "lru" 0

/-- C6 counterexample: with `MaxKeys = 1`, two distinct `Set`s whose
first key is the empty string leave 2 keys in the store: `evictLRU` uses
`""` as its not-found sentinel, so the scan "finds nothing" and evicts
no entry. -/
theorem maxKeys_exceeded_after_empty_key :
    (memSet (memSet c6Store 0 [] [97] 0) 1 [120] [98] 0).data.length = 2 ∧
    c6Store.maxKeys = 1 := by
  decide

/-! ### C8: Increment parsing -/

/-- C8 counterexample: `"05"` is a base-10 integer (value 5, per the
spec-reading parser `specParseBase10`), yet `Increment` on a key holding
it fails with the not-a-number error, because `json.Unmarshal` rejects
leading zeros. -/
theorem increment_rejects_leading_zero_integer :
    specParseBase10 [48, 53] = some 5 ∧
    (memIncrement (memSet freshStore 0 [107] [48, 53] 0) 1 [107] 1).1
      = .error "value is not a number" := by
  decide

/-! ### C9: stats counters across Clear -/

/-- C9 counterexample: after one `Set`, `Clear` leaves the `sets` counter
at 1 — `Clear` resets the table and `currentSize` but none of the stats
counters. -/
theorem clear_does_not_reset_counters :
    (memClear (memSet freshStore 0 [97] [1] 0)).sets = 1 ∧
    (memClear (memSet freshStore 0 [97] [1] 0)).data = [] ∧
    (memClear (memSet freshStore 0 [97] [1] 0)).currentSize = 0 := by
  decide

/-! ### Shared association-list lemmas -/

theorem assocFind_cons [DecidableEq κ] (k' : κ) (v' : α) (t : List (κ × α)) (k : κ) :
    assocFind ((k', v') :: t) k = if k' = k then some v' else assocFind t k := rfl

theorem assocFind_map_update [DecidableEq κ] (l : List (κ × α)) (k : κ) (v : α)
    (h : (assocFind l k).isSome) :
    assocFind (l.map fun kv => if kv.1 = k then (k, v) else kv) k = some v := by
  induction l with
  | nil => simp [assocFind] at h
  | cons kv t ih =>
    obtain ⟨k', v'⟩ := kv
    by_cases hk : k' = k
    · simp only [List.map_cons, if_pos hk, assocFind_cons, if_pos rfl]
      simp
    · rw [assocFind_cons, if_neg hk] at h
      simp only [List.map_cons, if_neg hk, assocFind_cons]
      exact ih h

theorem assocFind_assocSet_self [DecidableEq κ] (l : List (κ × α)) (k : κ) (v : α) :
    assocFind (assocSet l k v) k = some v := by
  unfold assocSet
  by_cases h : (assocFind l k).isSome
  · rw [if_pos h]
    exact assocFind_map_update l k v h
  · rw [if_neg h]
    induction l with
    | nil => simp [assocFind]
    | cons kv t ih =>
      obtain ⟨k', v'⟩ := kv
      by_cases hk : k' = k
      · rw [assocFind_cons, if_pos hk] at h
        simp at h
      · rw [assocFind_cons, if_neg hk] at h
        rw [List.cons_append, assocFind_cons, if_neg hk]
        exact ih h

theorem assocFind_append [DecidableEq κ] (l l' : List (κ × α)) (k : κ) :
    assocFind (l ++ l') k =
      (match assocFind l k with
       | some v => some v
       | none => assocFind l' k) := by
  induction l with
  | nil => simp [assocFind]
  | cons kv t ih =>
    obtain ⟨k', v'⟩ := kv
    by_cases hk : k' = k
    · rw [List.cons_append, assocFind_cons, if_pos hk, assocFind_cons, if_pos hk]
    · rw [List.cons_append, assocFind_cons, if_neg hk, assocFind_cons, if_neg hk, ih]

/-! ### C10: façade Expire/TTL under hierarchical or distributed mode -/

/-- C10: under hierarchical or sharded mode the façade's `Expire` and
`TTL` return the unsupported-operation errors for every key and TTL,
leaving the cache state untouched. -/
theorem expire_ttl_unsupported_in_hier_dist (mode : FacadeMode)
    (st : ClientState) (now : Nat) (key : Key) (ttl : Int)
    (h : mode.hierarchical = true ∨ mode.distributed = true) :
    facadeExpire mode st now key ttl
      = (.error "expire operation not supported in hierarchical/distributed mode", st) ∧
    facadeTTL mode st now key
      = (.error "ttl operation not supported in hierarchical/distributed mode", st) := by
  have hmode : (mode.hierarchical || mode.distributed) = true := by
    rcases h with h | h <;> simp [h]
  constructor
  · simp [facadeExpire, hmode]
  · simp [facadeTTL, hmode]

/-- Witness for `expire_ttl_unsupported_in_hier_dist` at a concrete
hierarchical client. -/
theorem expire_ttl_unsupported_witness :
    facadeExpire ⟨true, false⟩
        ⟨freshStore, freshStore, freshStore, []⟩ 0 [97] 7
      = (.error "expire operation not supported in hierarchical/distributed mode",
         ⟨freshStore, freshStore, freshStore, []⟩) ∧
    facadeTTL ⟨true, false⟩
        ⟨freshStore, freshStore, freshStore, []⟩ 0 [97]
      = (.error "ttl operation not supported in hierarchical/distributed mode",
         ⟨freshStore, freshStore, freshStore, []⟩) :=
  expire_ttl_unsupported_in_hier_dist ⟨true, false⟩
    ⟨freshStore, freshStore, freshStore, []⟩ 0 [97] 7 (Or.inl rfl)

/-! ### C4: per-key routing bypasses the configured sharder -/

theorem initSharding_foldl_shards (l : List Nat) (c : ClientSharding) :
    (l.foldl
      (fun (c : ClientSharding) i =>
        { shards := c.shards ++ [i], sharder := sharderAddShard c.sharder i })
      c).shards = c.shards ++ l := by
  induction l generalizing c with
  | nil => simp
  | cons x t ih => simp [List.foldl_cons, ih]

theorem initSharding_shards (algorithm : String) (replicas shardsCfg : Int)
    (h : 2 ≤ shardsCfg) :
    (initSharding algorithm replicas shardsCfg).shards
      = List.range shardsCfg.toNat := by
  have hpos : ¬ shardsCfg ≤ 0 := by omega
  unfold initSharding
  simp only [hpos, if_false]
  simpa using initSharding_foldl_shards (List.range shardsCfg.toNat)
    { shards := [], sharder := newSharder algorithm replicas }

theorem clientGetShard_crc32 (algorithm : String) (replicas shardsCfg : Int)
    (key : Key) (h : 2 ≤ shardsCfg) :
    clientGetShard (initSharding algorithm replicas shardsCfg) key
      = some (crc32 key % shardsCfg.toNat) := by
  have hsh := initSharding_shards algorithm replicas shardsCfg h
  have hn : 2 ≤ shardsCfg.toNat := by omega
  have hlen : (initSharding algorithm replicas shardsCfg).shards.length
      = shardsCfg.toNat := by rw [hsh, List.length_range]
  have hne0 : (initSharding algorithm replicas shardsCfg).shards.length ≠ 0 := by omega
  have hne1 : (initSharding algorithm replicas shardsCfg).shards.length ≠ 1 := by omega
  unfold clientGetShard
  simp only [hne0, hne1, if_false]
  have hkey : shardKeyFn key ((initSharding algorithm replicas shardsCfg).shards.length : Int)
      = crc32 key % shardsCfg.toNat := by
    unfold shardKeyFn
    rw [hlen, if_neg (by omega)]
    congr 1
  rw [hkey, hsh]
  exact List.get?_range (Nat.mod_lt _ (by omega))

/-- C4: in distributed mode with at least two shards every per-key façade
operation (`Get`, `Set`, `Delete`, `Exists`, `Increment`, `Decrement`)
routes key `k` to shard `crc32(k) mod shardCount`, for any configured
sharding algorithm; in particular any two algorithm choices (e.g.
`"consistent"` or `"range"` versus `"hash"`) give exactly the same
key-to-shard assignment, because `getShard` never consults the `Sharder`
built during `initSharding`. -/
theorem perKey_routing_ignores_sharding_algorithm
    (algA algB : String) (replicas shardsCfg : Int) (key : Key)
    (h : 2 ≤ shardsCfg) :
    (getDistributedRoute (initSharding algA replicas shardsCfg) key
       = some (crc32 key % shardsCfg.toNat)) ∧
    (setDistributedRoute (initSharding algA replicas shardsCfg) key
       = some (crc32 key % shardsCfg.toNat)) ∧
    (deleteDistributedRoute (initSharding algA replicas shardsCfg) key
       = some (crc32 key % shardsCfg.toNat)) ∧
    (existsDistributedRoute (initSharding algA replicas shardsCfg) key
       = some (crc32 key % shardsCfg.toNat)) ∧
    (incrementDistributedRoute (initSharding algA replicas shardsCfg) key
       = some (crc32 key % shardsCfg.toNat)) ∧
    (decrementDistributedRoute (initSharding algA replicas shardsCfg) key
       = some (crc32 key % shardsCfg.toNat)) ∧
    (getDistributedRoute (initSharding algA replicas shardsCfg) key
       = getDistributedRoute (initSharding algB replicas shardsCfg) key) := by
  have ha := clientGetShard_crc32 algA replicas shardsCfg key h
  have hb := clientGetShard_crc32 algB replicas shardsCfg key h
  exact ⟨ha, ha, ha, ha, ha, ha, by
    simp [getDistributedRoute, ha, hb]⟩

set_option maxRecDepth 8000 in
/-- Witness for `perKey_routing_ignores_sharding_algorithm`: a
consistent-hash versus hash configuration with 2 shards and key `"c"`. -/
theorem perKey_routing_witness :
    getDistributedRoute (initSharding "consistent" 3 2) [99] = some 1 ∧
    getDistributedRoute (initSharding "consistent" 3 2) [99]
      = getDistributedRoute (initSharding "hash" 3 2) [99] := by
  have h := perKey_routing_ignores_sharding_algorithm "consistent" "hash" 3 2 [99]
    (by norm_num)
  refine ⟨?_, h.2.2.2.2.2.2⟩
  rw [h.1]
  decide

/-! ### C7: hierarchical Get promotion -/

/-- The item a `Set` call stores. -/
def memSetItem (m : MemoryBackend) (now : Nat) (value : Bytes) (ttl : Int) :
    MemoryItem :=
  { value := value,
    expireTime :=
      if ttl > 0 then some (now + ttl.toNat)
      else if m.defaultTTL > 0 then some (now + m.defaultTTL.toNat)
      else none,
    accessTime := now, accessCount := 0 }

theorem memSet_data (m : MemoryBackend) (now : Nat) (key : Key) (v : Bytes)
    (ttl : Int) :
    ∃ d, (memSet m now key v ttl).data = assocSet d key (memSetItem m now v ttl) := by
  unfold memSet memSetItem
  exact ⟨_, rfl⟩

theorem memSetItem_not_expired (m : MemoryBackend) (now : Nat) (v : Bytes)
    (ttl : Int) : (memSetItem m now v ttl).expired now = false := by
  unfold memSetItem MemoryItem.expired
  by_cases h1 : ttl > 0
  · simp [h1]
  · by_cases h2 : m.defaultTTL > 0 <;> simp [h1, h2]

theorem memGet_after_memSet (m : MemoryBackend) (now : Nat) (key : Key)
    (v : Bytes) (ttl : Int) :
    (memGet (memSet m now key v ttl) now key).1 = .ok v := by
  obtain ⟨d, hd⟩ := memSet_data m now key v ttl
  unfold memGet
  rw [hd, assocFind_assocSet_self]
  simp only [memSetItem_not_expired, Bool.false_eq_true, if_false]
  rfl

/-- C7: on an L1 miss and an L2 hit, hierarchical `Get` returns the L2
value — the promotion write's outcome is discarded — and performs the
promotion with `t1.set` at the configured L1 TTL, with 5 minutes
substituted when the configured TTL is 0; and (instantiating L1 as the
in-memory tier) a promoted value is immediately visible to an L1-only
lookup. -/
theorem getHierarchical_promotes_and_returns_l2
    {σ₁ σ₂ α : Type} (l1TTLConfig : Int) (t1 : Tier σ₁ α) (t2 : Tier σ₂ α)
    (s1 : σ₁) (s2 : σ₂) (key : Key) (e1 : String) (v : α) (s1' : σ₁) (s2' : σ₂)
    (h1 : t1.get s1 key = (.error e1, s1'))
    (h2 : t2.get s2 key = (.ok v, s2')) :
    getHierarchical l1TTLConfig t1 t2 s1 s2 key
      = (.ok v,
         (t1.set s1' key v
           (if l1TTLConfig = 0 then fiveMinutes else l1TTLConfig)).2,
         s2') ∧
    (∀ (now : Nat) (m : MemoryBackend) (w : Bytes) (ttl : Int),
      ((memTier now).set m key w ttl).2 = memSet m now key w ttl ∧
      (memGet ((memTier now).set m key w ttl).2 now key).1 = .ok w) := by
  constructor
  · unfold getHierarchical
    rw [h1, h2]
  · intro now m w ttl
    exact ⟨rfl, memGet_after_memSet m now key w ttl⟩

/-- Witness for `getHierarchical_promotes_and_returns_l2`: both tiers
in-memory, the key only in L2; the hierarchical `Get` returns the L2
value and leaves it in L1. -/
theorem getHierarchical_promotes_witness :
    (getHierarchical 0 (memTier 0) (memTier 0) freshStore
        (memSet freshStore 0 [120] [7] 0) [120]).1 = .ok [7] ∧
    (memGet (getHierarchical 0 (memTier 0) (memTier 0) freshStore
        (memSet freshStore 0 [120] [7] 0) [120]).2.1 0 [120]).1 = .ok [7] := by
  have h := getHierarchical_promotes_and_returns_l2 0 (memTier 0) (memTier 0)
    freshStore (memSet freshStore 0 [120] [7] 0) [120] "key not found" [7]
    (memGet freshStore 0 [120]).2
    (memGet (memSet freshStore 0 [120] [7] 0) 0 [120]).2
    (by decide) (by decide)
  constructor
  · rw [h.1]
  · rw [h.1]
    have := (h.2 0 (memGet freshStore 0 [120]).2 [7] fiveMinutes).2
    simpa using this

/-! ### C9: stats counters are monotone; only reconstruction resets them -/

/-- One invocation of a `MemoryBackend` operation that can touch the
store's state, with the `time.Now()` instants it observes. -/
inductive MemOp where
  | get (now : Nat) (key : Key)
  | set (now : Nat) (key : Key) (value : Bytes) (ttl : Int)
  | del (key : Key)
  | chk (now : Nat) (key : Key)
  | getMulti (now : Nat) (keys : List Key)
  | setMulti (now : Nat) (items : List (Key × Bytes)) (ttl : Int)
  | delMulti (keys : List Key)
  | inc (now : Nat) (key : Key) (delta : Int)
  | dec (now : Nat) (key : Key) (delta : Int)
  | expire (now : Nat) (key : Key) (ttl : Int)
  | ttlOf (now : Nat) (key : Key)
  | clear
  | sweep (now : Nat)

/-- The state after running one operation (`chk` is `Exists`, `sweep` the
periodic `cleanupExpired` pass). -/
def applyMemOp (m : MemoryBackend) : MemOp → MemoryBackend
  | .get now key => (memGet m now key).2
  | .set now key value ttl => memSet m now key value ttl
  | .del key => memDelete m key
  | .chk now key => (memExists m now key).2
  | .getMulti now keys => (memGetMulti m now keys).2
  | .setMulti now items ttl => memSetMulti m now items ttl
  | .delMulti keys => memDeleteMulti m keys
  | .inc now key delta => (memIncrement m now key delta).2
  | .dec now key delta => (memDecrement m now key delta).2
  | .expire now key ttl => (memExpire m now key ttl).2
  | .ttlOf now key => (memTTL m now key).2
  | .clear => memClear m
  | .sweep now => memCleanupExpired m now

/-- Pointwise order on the five stats counters. -/
def ctrsLe (m m' : MemoryBackend) : Prop :=
  m.hits ≤ m'.hits ∧ m.misses ≤ m'.misses ∧ m.sets ≤ m'.sets ∧
  m.deletes ≤ m'.deletes ∧ m.evictions ≤ m'.evictions

theorem ctrsLe_refl (m : MemoryBackend) : ctrsLe m m :=
  ⟨le_refl _, le_refl _, le_refl _, le_refl _, le_refl _⟩

theorem ctrsLe_trans {a b c : MemoryBackend} (h1 : ctrsLe a b)
    (h2 : ctrsLe b c) : ctrsLe a c :=
  ⟨h1.1.trans h2.1, h1.2.1.trans h2.2.1, h1.2.2.1.trans h2.2.2.1,
   h1.2.2.2.1.trans h2.2.2.2.1, h1.2.2.2.2.trans h2.2.2.2.2⟩

theorem evictLRU_ctrsLe (m : MemoryBackend) : ctrsLe m (evictLRU m) := by
  unfold evictLRU
  dsimp only
  split
  · split
    · exact ⟨le_refl _, le_refl _, le_refl _, le_refl _, Nat.le_succ _⟩
    · exact ctrsLe_refl m
  · exact ctrsLe_refl m

theorem evictLFU_ctrsLe (m : MemoryBackend) : ctrsLe m (evictLFU m) := by
  unfold evictLFU
  dsimp only
  split
  · split
    · exact ⟨le_refl _, le_refl _, le_refl _, le_refl _, Nat.le_succ _⟩
    · exact ctrsLe_refl m
  · exact ctrsLe_refl m

theorem evictRandom_ctrsLe (m : MemoryBackend) : ctrsLe m (evictRandom m) := by
  unfold evictRandom
  split
  · exact ctrsLe_refl m
  · exact ⟨le_refl _, le_refl _, le_refl _, le_refl _, Nat.le_succ _⟩

theorem evictItems_ctrsLe (m : MemoryBackend) (sz : Int) :
    ctrsLe m (evictItems m sz) := by
  unfold evictItems
  split
  · exact evictLRU_ctrsLe m
  · exact evictLFU_ctrsLe m
  · exact evictRandom_ctrsLe m
  · exact evictLRU_ctrsLe m

theorem memGet_ctrsLe (m : MemoryBackend) (now : Nat) (key : Key) :
    ctrsLe m (memGet m now key).2 := by
  unfold memGet
  split
  · exact ⟨le_refl _, Nat.le_succ _, le_refl _, le_refl _, le_refl _⟩
  · split
    · exact ⟨le_refl _, Nat.le_succ _, le_refl _, le_refl _, le_refl _⟩
    · exact ⟨Nat.le_succ _, le_refl _, le_refl _, le_refl _, le_refl _⟩

theorem memSet_ctrsLe (m : MemoryBackend) (now : Nat) (key : Key)
    (value : Bytes) (ttl : Int) : ctrsLe m (memSet m now key value ttl) := by
  unfold memSet
  dsimp only
  refine ctrsLe_trans (b := if m.maxSize > 0 ∧ m.currentSize + (value.length : Int) > m.maxSize
    then evictItems m (m.currentSize + (value.length : Int) - m.maxSize) else m) ?_ ?_
  · split
    · exact evictItems_ctrsLe m _
    · exact ctrsLe_refl m
  · generalize (if m.maxSize > 0 ∧ m.currentSize + (value.length : Int) > m.maxSize
      then evictItems m (m.currentSize + (value.length : Int) - m.maxSize) else m) = m1
    refine ctrsLe_trans (b := if m.maxKeys > 0 ∧ ((m1.data.length : Int) ≥ m.maxKeys)
      then evictLRU m1 else m1) ?_ ?_
    · split
      · exact evictLRU_ctrsLe m1
      · exact ctrsLe_refl m1
    · generalize (if m.maxKeys > 0 ∧ ((m1.data.length : Int) ≥ m.maxKeys)
        then evictLRU m1 else m1) = m2
      split
      · exact ⟨le_refl _, le_refl _, Nat.le_succ _, le_refl _, le_refl _⟩
      · exact ⟨le_refl _, le_refl _, Nat.le_succ _, le_refl _, le_refl _⟩

theorem memDelete_ctrsLe (m : MemoryBackend) (key : Key) :
    ctrsLe m (memDelete m key) := by
  unfold memDelete
  split
  · exact ⟨le_refl _, le_refl _, le_refl _, Nat.le_succ _, le_refl _⟩
  · exact ctrsLe_refl m

theorem memExists_ctrsLe (m : MemoryBackend) (now : Nat) (key : Key) :
    ctrsLe m (memExists m now key).2 := by
  unfold memExists
  split
  · exact ctrsLe_refl m
  · split
    · exact ctrsLe_refl _
    · exact ctrsLe_refl m

theorem memIncrement_ctrsLe (m : MemoryBackend) (now : Nat) (key : Key)
    (delta : Int) : ctrsLe m (memIncrement m now key delta).2 := by
  unfold memIncrement
  split
  · exact ctrsLe_refl _
  · split
    · exact ctrsLe_refl m
    · exact ctrsLe_refl _

theorem memExpire_ctrsLe (m : MemoryBackend) (now : Nat) (key : Key)
    (ttl : Int) : ctrsLe m (memExpire m now key ttl).2 := by
  unfold memExpire
  split
  · exact ctrsLe_refl m
  · exact ctrsLe_refl _

theorem memTTL_ctrsLe (m : MemoryBackend) (now : Nat) (key : Key) :
    ctrsLe m (memTTL m now key).2 := by
  unfold memTTL
  split
  · exact ctrsLe_refl m
  · split
    · exact ctrsLe_refl m
    · exact ctrsLe_refl m

theorem memGetMulti_ctrsLe (m : MemoryBackend) (now : Nat) (keys : List Key) :
    ctrsLe m (memGetMulti m now keys).2 := by
  unfold memGetMulti
  suffices h : ∀ (ks : List Key) (acc : List (Key × Bytes) × MemoryBackend),
      ctrsLe acc.2 (ks.foldl
        (fun acc key =>
          match memGet acc.2 now key with
          | (.ok v, m') => (acc.1 ++ [(key, v)], m')
          | (.error _, m') => (acc.1, m'))
        acc).2 by
    exact h keys ([], m)
  intro ks
  induction ks with
  | nil => intro acc; exact ctrsLe_refl _
  | cons k t ih =>
    intro acc
    refine ctrsLe_trans (b := (match memGet acc.2 now k with
      | (.ok v, m') => (acc.1 ++ [(k, v)], m')
      | (.error _, m') => (acc.1, m')).2) ?_ (ih _)
    rcases hg : memGet acc.2 now k with ⟨r, m'⟩
    have := memGet_ctrsLe acc.2 now k
    rw [hg] at this
    cases r
    · exact this
    · exact this

theorem memSetMulti_ctrsLe (m : MemoryBackend) (now : Nat)
    (items : List (Key × Bytes)) (ttl : Int) :
    ctrsLe m (memSetMulti m now items ttl) := by
  unfold memSetMulti
  induction items generalizing m with
  | nil => exact ctrsLe_refl m
  | cons kv t ih =>
    exact ctrsLe_trans (memSet_ctrsLe m now kv.1 kv.2 ttl) (ih _)

theorem memDeleteMulti_ctrsLe (m : MemoryBackend) (keys : List Key) :
    ctrsLe m (memDeleteMulti m keys) := by
  unfold memDeleteMulti
  induction keys generalizing m with
  | nil => exact ctrsLe_refl m
  | cons k t ih =>
    exact ctrsLe_trans (memDelete_ctrsLe m k) (ih _)

theorem memCleanupExpired_ctrsLe (m : MemoryBackend) (now : Nat) :
    ctrsLe m (memCleanupExpired m now) := by
  unfold memCleanupExpired
  suffices h : ∀ (l : List (Key × MemoryItem)) (acc : MemoryBackend),
      ctrsLe acc (l.foldl
        (fun acc kv =>
          if kv.2.expired now then
            { acc with currentSize := acc.currentSize - kv.2.value.length,
                       data := assocErase acc.data kv.1 }
          else acc) acc) by
    exact h m.data m
  intro l
  induction l with
  | nil => intro acc; exact ctrsLe_refl _
  | cons kv t ih =>
    intro acc
    refine ctrsLe_trans (b := if kv.2.expired now then
      { acc with currentSize := acc.currentSize - kv.2.value.length,
                 data := assocErase acc.data kv.1 } else acc) ?_ (ih _)
    split
    · exact ctrsLe_refl _
    · exact ctrsLe_refl acc

/-- C9 amended: the five stats counters never decrease across any
`MemoryBackend` operation — including `Clear`, which resets the table and
the memory gauge but leaves every counter untouched, so nothing short of
reconstructing the backend resets them. -/
theorem counters_monotone_and_clear_keeps_them :
    (∀ (m : MemoryBackend) (op : MemOp), ctrsLe m (applyMemOp m op)) ∧
    (∀ m : MemoryBackend,
      (memClear m).hits = m.hits ∧ (memClear m).misses = m.misses ∧
      (memClear m).sets = m.sets ∧ (memClear m).deletes = m.deletes ∧
      (memClear m).evictions = m.evictions ∧
      (memClear m).data = [] ∧ (memClear m).currentSize = 0) := by
  constructor
  · intro m op
    cases op with
    | get now key => exact memGet_ctrsLe m now key
    | set now key value ttl => exact memSet_ctrsLe m now key value ttl
    | del key => exact memDelete_ctrsLe m key
    | chk now key => exact memExists_ctrsLe m now key
    | getMulti now keys => exact memGetMulti_ctrsLe m now keys
    | setMulti now items ttl => exact memSetMulti_ctrsLe m now items ttl
    | delMulti keys => exact memDeleteMulti_ctrsLe m keys
    | inc now key delta => exact memIncrement_ctrsLe m now key delta
    | dec now key delta => exact memIncrement_ctrsLe m now key _
    | expire now key ttl => exact memExpire_ctrsLe m now key ttl
    | ttlOf now key => exact memTTL_ctrsLe m now key
    | clear => exact ctrsLe_refl _
    | sweep now => exact memCleanupExpired_ctrsLe m now
  · intro m
    exact ⟨rfl, rfl, rfl, rfl, rfl, rfl, rfl⟩

/-! ### C6: the key count stays within `MaxKeys` (for nonempty keys) -/

theorem assocSet_length_le (l : List (Key × α)) (k : Key) (v : α) :
    (assocSet l k v).length ≤ l.length + 1 := by
  unfold assocSet
  split
  · simp
  · simp

theorem mem_assocSet (l : List (Key × α)) (k : Key) (v : α) :
    ∀ kv' ∈ assocSet l k v, kv' = (k, v) ∨ kv' ∈ l := by
  unfold assocSet
  split
  · intro kv' h
    obtain ⟨a, ha, rfl⟩ := List.mem_map.mp h
    by_cases hk : a.1 = k
    · left; simp [hk]
    · right; simpa [hk] using ha
  · intro kv' h
    rcases List.mem_append.mp h with h | h
    · right; exact h
    · left; simpa using h

theorem mem_assocErase (l : List (Key × α)) (k : Key) :
    ∀ kv' ∈ assocErase l k, kv' ∈ l := by
  intro kv' h
  exact List.mem_of_mem_filter h

theorem assocErase_length_le (l : List (Key × α)) (k : Key) :
    (assocErase l k).length ≤ l.length :=
  List.length_filter_le _ l

theorem assocErase_length_lt (l : List (Key × α)) (k : Key)
    (h : (assocFind l k).isSome) : (assocErase l k).length < l.length := by
  induction l with
  | nil => simp [assocFind] at h
  | cons kv t ih =>
    obtain ⟨k', v'⟩ := kv
    by_cases hk : k' = k
    · have : assocErase ((k', v') :: t) k = assocErase t k := by
        unfold assocErase
        simp [List.filter_cons, hk]
      rw [this]
      calc (assocErase t k).length ≤ t.length := assocErase_length_le t k
        _ < ((k', v') :: t).length := by simp
    · rw [assocFind_cons, if_neg hk] at h
      have : assocErase ((k', v') :: t) k = (k', v') :: assocErase t k := by
        unfold assocErase
        simp [List.filter_cons, hk]
      rw [this]
      simpa using Nat.succ_lt_succ (ih h)

theorem assocFind_isSome_of_mem_keys (l : List (Key × α)) (k : Key)
    (h : k ∈ l.map Prod.fst) : (assocFind l k).isSome := by
  induction l with
  | nil => simp at h
  | cons kv t ih =>
    obtain ⟨k', v'⟩ := kv
    by_cases hk : k' = k
    · rw [assocFind_cons, if_pos hk]; rfl
    · rw [assocFind_cons, if_neg hk]
      rcases List.mem_map.mp h with ⟨a, ha, heq⟩
      rcases List.mem_cons.mp ha with rfl | ha'

      · exact absurd heq hk
      · exact ih (List.mem_map.mpr ⟨a, ha', heq⟩)

theorem lruScanStep_cases (acc : Key × Nat) (kv : Key × MemoryItem) :
    lruScanStep acc kv = (kv.1, kv.2.accessTime) ∨ lruScanStep acc kv = acc := by
  unfold lruScanStep
  split
  · exact Or.inl rfl
  · exact Or.inr rfl

theorem lruScan_result_mem (l : List (Key × MemoryItem)) :
    ∀ acc : Key × Nat, (l.foldl lruScanStep acc).1 = acc.1 ∨
      (l.foldl lruScanStep acc).1 ∈ l.map Prod.fst := by
  induction l with
  | nil => intro acc; left; rfl
  | cons kv t ih =>
    intro acc
    rw [List.foldl_cons]
    rcases ih (lruScanStep acc kv) with h | h
    · rcases lruScanStep_cases acc kv with hstep | hstep
      · right
        rw [h, hstep]
        simp
      · left
        rw [h, hstep]
    · right
      simp [h]

theorem lruScan_ne_nil (l : List (Key × MemoryItem))
    (hl : ∀ kv ∈ l, kv.1 ≠ ([] : Key)) :
    ∀ acc : Key × Nat, acc.1 ≠ [] → (l.foldl lruScanStep acc).1 ≠ [] := by
  induction l with
  | nil => intro acc h; exact h
  | cons kv t ih =>
    intro acc hacc
    rw [List.foldl_cons]
    refine ih (fun kv' h => hl kv' (List.mem_cons_of_mem _ h)) _ ?_
    rcases lruScanStep_cases acc kv with hstep | hstep
    · rw [hstep]
      exact hl kv (List.mem_cons_self _ _)
    · rw [hstep]
      exact hacc

theorem lruScan_props (l : List (Key × MemoryItem)) (hne : l ≠ [])
    (hl : ∀ kv ∈ l, kv.1 ≠ ([] : Key)) :
    (l.foldl lruScanStep ([], 0)).1 ≠ [] ∧
    (l.foldl lruScanStep ([], 0)).1 ∈ l.map Prod.fst := by
  have h1 : (l.foldl lruScanStep ([], 0)).1 ≠ [] := by
    rcases l with _ | ⟨kv0, t⟩
    · exact absurd rfl hne
    · rw [List.foldl_cons]
      refine lruScan_ne_nil t (fun kv' h => hl kv' (List.mem_cons_of_mem _ h)) _ ?_
      have hfire : lruScanStep (([] : Key), 0) kv0 = (kv0.1, kv0.2.accessTime) := by
        unfold lruScanStep
        rw [if_pos (by simp)]
      rw [hfire]
      exact hl kv0 (List.mem_cons_self _ _)
  refine ⟨h1, ?_⟩
  rcases lruScan_result_mem l ([], 0) with h | h
  · exact absurd h h1
  · exact h

theorem evictLRU_shrinks (m : MemoryBackend) (hne : m.data ≠ [])
    (hk : ∀ kv ∈ m.data, kv.1 ≠ ([] : Key)) :
    (evictLRU m).data.length < m.data.length := by
  have hp := lruScan_props m.data hne hk
  unfold evictLRU
  dsimp only
  rw [if_pos hp.1]
  have hsome := assocFind_isSome_of_mem_keys m.data _ hp.2
  rcases hfind : assocFind m.data (m.data.foldl lruScanStep ([], 0)).1 with _ | item
  · rw [hfind] at hsome; simp at hsome
  · exact assocErase_length_lt _ _ hsome

theorem evictLRU_maxKeys (m : MemoryBackend) : (evictLRU m).maxKeys = m.maxKeys := by
  unfold evictLRU
  dsimp only
  split
  · split <;> rfl
  · rfl

theorem evictLRU_data_le (m : MemoryBackend) :
    (evictLRU m).data.length ≤ m.data.length ∧
    (∀ kv ∈ (evictLRU m).data, kv ∈ m.data) := by
  unfold evictLRU
  dsimp only
  split
  · split
    · exact ⟨assocErase_length_le _ _, fun kv h => mem_assocErase _ _ kv h⟩
    · exact ⟨le_refl _, fun kv h => h⟩
  · exact ⟨le_refl _, fun kv h => h⟩

theorem evictLFU_data_le (m : MemoryBackend) :
    (evictLFU m).maxKeys = m.maxKeys ∧
    (evictLFU m).data.length ≤ m.data.length ∧
    (∀ kv ∈ (evictLFU m).data, kv ∈ m.data) := by
  unfold evictLFU
  dsimp only
  split
  · split
    · exact ⟨rfl, assocErase_length_le _ _, fun kv h => mem_assocErase _ _ kv h⟩
    · exact ⟨rfl, le_refl _, fun kv h => h⟩
  · exact ⟨rfl, le_refl _, fun kv h => h⟩

theorem evictRandom_data_le (m : MemoryBackend) :
    (evictRandom m).maxKeys = m.maxKeys ∧
    (evictRandom m).data.length ≤ m.data.length ∧
    (∀ kv ∈ (evictRandom m).data, kv ∈ m.data) := by
  unfold evictRandom
  split
  · exact ⟨rfl, le_refl _, fun kv h => h⟩
  · exact ⟨rfl, assocErase_length_le _ _, fun kv h => mem_assocErase _ _ kv h⟩

theorem evictItems_data_le (m : MemoryBackend) (sz : Int) :
    (evictItems m sz).maxKeys = m.maxKeys ∧
    (evictItems m sz).data.length ≤ m.data.length ∧
    (∀ kv ∈ (evictItems m sz).data, kv ∈ m.data) := by
  unfold evictItems
  split
  · exact ⟨evictLRU_maxKeys m, (evictLRU_data_le m).1, (evictLRU_data_le m).2⟩
  · exact evictLFU_data_le m
  · exact evictRandom_data_le m
  · exact ⟨evictLRU_maxKeys m, (evictLRU_data_le m).1, (evictLRU_data_le m).2⟩

/-- All keys in the store are nonempty strings. -/
def KeysNonempty (m : MemoryBackend) : Prop :=
  ∀ kv ∈ m.data, kv.1 ≠ ([] : Key)

theorem memSet_keyBound (M : Int) (hM : 1 ≤ M) (m : MemoryBackend)
    (now : Nat) (key : Key) (value : Bytes) (ttl : Int)
    (hmk : m.maxKeys = M) (hkey : key ≠ []) (hlen : (m.data.length : Int) ≤ M)
    (hne : KeysNonempty m) :
    (memSet m now key value ttl).maxKeys = M ∧
    ((memSet m now key value ttl).data.length : Int) ≤ M ∧
    KeysNonempty (memSet m now key value ttl) := by
  unfold memSet
  dsimp only
  generalize hm1 : (if m.maxSize > 0 ∧ m.currentSize + (value.length : Int) > m.maxSize
    then evictItems m (m.currentSize + (value.length : Int) - m.maxSize) else m) = m1
  have h1 : m1.maxKeys = M ∧ m1.data.length ≤ m.data.length ∧
      (∀ kv ∈ m1.data, kv ∈ m.data) := by
    rw [← hm1]
    split
    · have := evictItems_data_le m (m.currentSize + (value.length : Int) - m.maxSize)
      exact ⟨this.1.trans hmk, this.2.1, this.2.2⟩
    · exact ⟨hmk, le_refl _, fun kv h => h⟩
  generalize hm2 : (if m.maxKeys > 0 ∧ ((m1.data.length : Int) ≥ m.maxKeys)
    then evictLRU m1 else m1) = m2
  have h2 : m2.maxKeys = M ∧ ((m2.data.length : Int) + 1 ≤ M) ∧
      (∀ kv ∈ m2.data, kv ∈ m.data) := by
    rw [← hm2]
    split
    · rename_i hcond
      have hfull : (m1.data.length : Int) ≥ M := by
        have := hcond.2
        rwa [hmk] at this
      have hnonnil : m1.data ≠ [] := by
        intro hnil
        rw [hnil] at hfull
        simp at hfull
        omega
      have hk1 : ∀ kv ∈ m1.data, kv.1 ≠ ([] : Key) :=
        fun kv h => hne kv (h1.2.2 kv h)
      have hlt := evictLRU_shrinks m1 hnonnil hk1
      refine ⟨(evictLRU_maxKeys m1).trans h1.1, ?_, ?_⟩
      · have hm1len : (m1.data.length : Int) ≤ M := by
          calc (m1.data.length : Int) ≤ (m.data.length : Int) := by
                exact_mod_cast h1.2.1
            _ ≤ M := hlen
        have : ((evictLRU m1).data.length : Int) + 1 ≤ (m1.data.length : Int) := by
          exact_mod_cast hlt
        omega
      · exact fun kv h => h1.2.2 kv ((evictLRU_data_le m1).2 kv h)
    · rename_i hcond
      have hMpos : m.maxKeys > 0 := by rw [hmk]; omega
      have hlt : ¬ ((m1.data.length : Int) ≥ m.maxKeys) := by
        intro hge
        exact hcond ⟨hMpos, hge⟩
      rw [hmk] at hlt
      exact ⟨h1.1, by omega, h1.2.2⟩
  generalize hm3 : (match assocFind m2.data key with
    | some oldItem => { m2 with currentSize := m2.currentSize - (oldItem.value.length : Int) }
    | none => m2) = m3
  have h3 : m3.maxKeys = M ∧ m3.data = m2.data := by
    rw [← hm3]
    rcases assocFind m2.data key with _ | item
    · exact ⟨h2.1, rfl⟩
    · exact ⟨h2.1, rfl⟩
  refine ⟨h3.1, ?_, ?_⟩
  · have := assocSet_length_le m3.data key
      { value := value,
        expireTime := if ttl > 0 then some (now + ttl.toNat)
          else if m.defaultTTL > 0 then some (now + m.defaultTTL.toNat) else none,
        accessTime := now, accessCount := 0 }
    have hcast : ((assocSet m3.data key
      { value := value,
        expireTime := if ttl > 0 then some (now + ttl.toNat)
          else if m.defaultTTL > 0 then some (now + m.defaultTTL.toNat) else none,
        accessTime := now, accessCount := 0 }).length : Int)
        ≤ (m3.data.length : Int) + 1 := by exact_mod_cast this
    calc _ ≤ (m3.data.length : Int) + 1 := hcast
      _ = (m2.data.length : Int) + 1 := by rw [h3.2]
      _ ≤ M := h2.2.1
  · intro kv hkv
    rcases mem_assocSet _ _ _ kv hkv with rfl | hmem
    · exact hkey
    · rw [h3.2] at hmem
      exact hne kv (h2.2.2 kv hmem)

/-- One `Set` call on the store: the `time.Now()` instant, key, value and
TTL. -/
structure SetCall where
  now : Nat
  key : Key
  value : Bytes
  ttl : Int

/-- Run a sequence of `Set` calls. -/
def applySetCalls (m : MemoryBackend) (ops : List SetCall) : MemoryBackend :=
  ops.foldl (fun acc o => memSet acc o.now o.key o.value o.ttl) m

theorem applySetCalls_invariant (M : Int) (hM : 1 ≤ M) :
    ∀ (ops : List SetCall) (m : MemoryBackend),
      m.maxKeys = M → ((m.data.length : Int) ≤ M) → KeysNonempty m →
      (∀ o ∈ ops, o.key ≠ []) →
      (applySetCalls m ops).maxKeys = M ∧
      ((applySetCalls m ops).data.length : Int) ≤ M ∧
      KeysNonempty (applySetCalls m ops) := by
  intro ops
  induction ops with
  | nil => exact fun m hmk hlen hne _ => ⟨hmk, hlen, hne⟩
  | cons o t ih =>
    intro m hmk hlen hne hkeys
    have hstep := memSet_keyBound M hM m o.now o.key o.value o.ttl hmk
      (hkeys o (List.mem_cons_self _ _)) hlen hne
    exact ih (memSet m o.now o.key o.value o.ttl) hstep.1 hstep.2.1 hstep.2.2
      (fun o' h => hkeys o' (List.mem_cons_of_mem _ h))

/-- C6 amended: for every configured `MaxKeys = M ≥ 1`, starting from a
fresh store, after any sequence of `Set`s whose keys are all nonempty
strings (and no deletes) the key count never exceeds `M` at any
observation point between operations — i.e. after every prefix of the
sequence.  (The unrestricted claim fails when a `Set` uses the empty-string
key, which defeats `evictLRU`'s sentinel.) -/
theorem keyCount_bounded_by_maxKeys (M : Int) (hM : 1 ≤ M)
    (m0 : MemoryBackend) (h0 : m0.data = []) (hmk : m0.maxKeys = M)
    (ops pre suf : List SetCall) (hsplit : ops = pre ++ suf)
    (hkeys : ∀ o ∈ ops, o.key ≠ []) :
    ((applySetCalls m0 pre).data.length : Int) ≤ M := by
  have hpre : ∀ o ∈ pre, o.key ≠ [] := by
    intro o h
    exact hkeys o (hsplit ▸ List.mem_append_left _ h)
  have := applySetCalls_invariant M hM pre m0 hmk
    (by rw [h0]; simp; omega) (by intro kv h; rw [h0] at h; simp at h) hpre
  exact this.2.1

/-- Witness for `keyCount_bounded_by_maxKeys`: `MaxKeys = 1`, two distinct
nonempty-keyed `Set`s; the count after both stays at 1. -/
theorem keyCount_bounded_witness :
    ((applySetCalls c6Store [⟨0, [97], [1], 0⟩, ⟨1, [98], [2], 0⟩]).data.length : Int) ≤ 1 :=
  keyCount_bounded_by_maxKeys 1 (by norm_num) c6Store rfl rfl
    [⟨0, [97], [1], 0⟩, ⟨1, [98], [2], 0⟩]
    [⟨0, [97], [1], 0⟩, ⟨1, [98], [2], 0⟩] [] rfl
    (by intro o h; fin_cases h <;> simp)

/-! ### C8: Increment/Decrement semantics -/

theorem memIncrement_absent (m : MemoryBackend) (now : Nat) (key : Key)
    (delta : Int) (h : assocFind m.data key = none) :
    (memIncrement m now key delta).1 = .ok delta ∧
    assocFind (memIncrement m now key delta).2.data key
      = some ⟨intDecBytes delta, none, now, 0⟩ := by
  unfold memIncrement
  simp only [h]
  refine ⟨trivial, ?_⟩
  rw [assocFind_append, h]
  simp [assocFind]

theorem memIncrement_notNumber (m : MemoryBackend) (now : Nat) (key : Key)
    (delta : Int) (item : MemoryItem) (h : assocFind m.data key = some item)
    (hp : jsonParseInt64 item.value = none) :
    memIncrement m now key delta = (.error "value is not a number", m) := by
  unfold memIncrement
  simp only [h, hp]

theorem memIncrement_found (m : MemoryBackend) (now : Nat) (key : Key)
    (delta : Int) (item : MemoryItem) (n : Int)
    (h : assocFind m.data key = some item)
    (hp : jsonParseInt64 item.value = some n) :
    (memIncrement m now key delta).1 = .ok (wrap64 (n + delta)) ∧
    assocFind (memIncrement m now key delta).2.data key
      = some { item with value := intDecBytes (wrap64 (n + delta)),
                         accessTime := now } := by
  unfold memIncrement
  simp only [h, hp]
  exact ⟨trivial, assocFind_assocSet_self _ _ _⟩

/-- C8 amended: `Increment` treats an absent key as zero, returning the
delta and storing its decimal rendering (as a fresh non-expiring entry);
for a present key it parses the stored bytes as a JSON `int64` — optional
surrounding whitespace, then either an integer number literal (optional
minus sign, digits without a leading zero, within the `int64` range) or
the literal `null`, which `json.Unmarshal` treats as a no-op and so reads
as the zero value 0 — failing with the not-a-number error exactly when
that parse fails, and otherwise storing and returning the wrapped `int64`
sum.  Consequently `Increment(k, 5)` on an absent key returns 5 and a
following `Decrement(k, 5)` returns 0. -/
theorem increment_parses_json_int64 :
    (∀ (m : MemoryBackend) (now : Nat) (key : Key) (delta : Int),
      assocFind m.data key = none →
        (memIncrement m now key delta).1 = .ok delta ∧
        assocFind (memIncrement m now key delta).2.data key
          = some ⟨intDecBytes delta, none, now, 0⟩) ∧
    (∀ (m : MemoryBackend) (now : Nat) (key : Key) (delta : Int)
        (item : MemoryItem),
      assocFind m.data key = some item →
      jsonParseInt64 item.value = none →
        memIncrement m now key delta = (.error "value is not a number", m)) ∧
    (∀ (m : MemoryBackend) (now : Nat) (key : Key) (delta : Int)
        (item : MemoryItem) (n : Int),
      assocFind m.data key = some item →
      jsonParseInt64 item.value = some n →
        (memIncrement m now key delta).1 = .ok (wrap64 (n + delta)) ∧
        assocFind (memIncrement m now key delta).2.data key
          = some { item with value := intDecBytes (wrap64 (n + delta)),
                             accessTime := now }) ∧
    (∀ (m : MemoryBackend) (now now' : Nat) (key : Key),
      assocFind m.data key = none →
        (memIncrement m now key 5).1 = .ok 5 ∧
        (memDecrement (memIncrement m now key 5).2 now' key 5).1 = .ok 0) := by
  refine ⟨memIncrement_absent, memIncrement_notNumber, memIncrement_found,
    fun m now now' key h => ?_⟩
  refine ⟨(memIncrement_absent m now key 5 h).1, ?_⟩
  unfold memDecrement
  have hneg : wrap64 (-(5 : Int)) = -5 := by decide
  rw [hneg]
  have hfind := (memIncrement_absent m now key 5 h).2
  have hparse : jsonParseInt64 ((⟨intDecBytes 5, none, now, 0⟩ : MemoryItem).value)
      = some 5 := by
    show jsonParseInt64 (intDecBytes 5) = some 5
    decide
  rw [(memIncrement_found _ now' key (-5) _ 5 hfind hparse).1]
  decide

/-- Witness for `increment_parses_json_int64` at concrete stores: an
absent key, a non-numeric value, a numeric value, a stored JSON `null`
(which reads as 0), and the 5/−5 round trip. -/
theorem increment_parses_witness :
    (memIncrement freshStore 0 [107] 7).1 = .ok 7 ∧
    memIncrement (memSet freshStore 0 [106] [110, 111] 0) 1 [106] 1
      = (.error "value is not a number", memSet freshStore 0 [106] [110, 111] 0) ∧
    (memIncrement (memSet freshStore 0 [105] [52, 50] 0) 1 [105] 1).1 = .ok 43 ∧
    (memIncrement (memSet freshStore 0 [108] [110, 117, 108, 108] 0) 1 [108] 7).1
      = .ok 7 ∧
    (memDecrement (memIncrement freshStore 0 [107] 5).2 1 [107] 5).1 = .ok 0 := by
  have h := increment_parses_json_int64
  refine ⟨(h.1 freshStore 0 [107] 7 (by decide)).1, ?_, ?_, ?_, ?_⟩
  · exact h.2.1 (memSet freshStore 0 [106] [110, 111] 0) 1 [106] 1
      ⟨[110, 111], none, 0, 0⟩ (by decide) (by decide)
  · have := (h.2.2.1 (memSet freshStore 0 [105] [52, 50] 0) 1 [105] 1
      ⟨[52, 50], none, 0, 0⟩ 42 (by decide) (by decide)).1
    rw [this]
    decide
  · have := (h.2.2.1 (memSet freshStore 0 [108] [110, 117, 108, 108] 0) 1 [108] 7
      ⟨[110, 117, 108, 108], none, 0, 0⟩ 0 (by decide) (by decide)).1
    rw [this]
    decide
  · exact (h.2.2.2 freshStore 0 1 [107] (by decide)).2

/-! ### C5: consistent-hash determinism and Add/Remove restoration -/

theorem assocFind_map_update_ne [DecidableEq κ] (l : List (κ × α)) (k : κ)
    (v : α) (k' : κ) (h : k' ≠ k) :
    assocFind (l.map fun kv => if kv.1 = k then (k, v) else kv) k'
      = assocFind l k' := by
  induction l with
  | nil => rfl
  | cons kv t ih =>
    obtain ⟨k0, v0⟩ := kv
    rw [List.map_cons]
    by_cases hk0 : k0 = k
    · simp only [if_pos hk0]
      rw [assocFind_cons, assocFind_cons, if_neg (fun hh => h hh.symm),
        if_neg (fun hh => h (hk0 ▸ hh).symm)]
      exact ih
    · simp only [if_neg hk0]
      rw [assocFind_cons, assocFind_cons]
      by_cases hk0' : k0 = k'
      · rw [if_pos hk0', if_pos hk0']
      · rw [if_neg hk0', if_neg hk0']
        exact ih

theorem assocFind_assocSet_ne [DecidableEq κ] (l : List (κ × α)) (k : κ)
    (v : α) (k' : κ) (h : k' ≠ k) :
    assocFind (assocSet l k v) k' = assocFind l k' := by
  unfold assocSet
  split
  · exact assocFind_map_update_ne l k v k' h
  · rw [assocFind_append]
    rcases hf : assocFind l k' with _ | w
    · rw [assocFind_cons]
      rw [if_neg (fun hh => h hh.symm)]
      rfl
    · rfl

theorem assocFind_assocErase_ne [DecidableEq κ] (l : List (κ × α)) (k k' : κ)
    (h : k' ≠ k) : assocFind (assocErase l k) k' = assocFind l k' := by
  induction l with
  | nil => rfl
  | cons kv t ih =>
    obtain ⟨k0, v0⟩ := kv
    show assocFind (List.filter (fun kv => kv.1 ≠ k) ((k0, v0) :: t)) k' = _
    rw [List.filter_cons]
    by_cases hk0 : k0 = k
    · rw [if_neg (by simp [hk0])]
      rw [assocFind_cons, if_neg (fun hh => h (hk0 ▸ hh).symm)]
      exact ih
    · rw [if_pos (by simp [hk0])]
      rw [assocFind_cons, assocFind_cons]
      by_cases hk0' : k0 = k'
      · rw [if_pos hk0', if_pos hk0']
      · rw [if_neg hk0', if_neg hk0']
        exact ih

theorem ringGet_eq_getD (r : List (Nat × Nat)) (k : Nat) :
    ringGet r k = (ringGet? r k).getD 0 := rfl

theorem ringGet?_ringSet_self (r : List (Nat × Nat)) (k v : Nat) :
    ringGet? (ringSet r k v) k = some v :=
  assocFind_assocSet_self r k v

theorem ringGet?_ringSet_ne (r : List (Nat × Nat)) (k v k' : Nat)
    (h : k' ≠ k) : ringGet? (ringSet r k v) k' = ringGet? r k' :=
  assocFind_assocSet_ne r k v k' h

theorem ringGet?_ringDel_ne (r : List (Nat × Nat)) (k k' : Nat) (h : k' ≠ k) :
    ringGet? (ringDel r k) k' = ringGet? r k' :=
  assocFind_assocErase_ne r k k' h

theorem ringGet?_foldSet_not_mem (hs : List Nat) (v : Nat)
    (r : List (Nat × Nat)) (k : Nat) (h : k ∉ hs) :
    ringGet? (hs.foldl (fun r h => ringSet r h v) r) k = ringGet? r k := by
  induction hs generalizing r with
  | nil => rfl
  | cons h0 t ih =>
    rw [List.foldl_cons]
    rw [ih _ (fun hm => h (List.mem_cons_of_mem _ hm))]
    exact ringGet?_ringSet_ne r h0 v k (fun hk => h (hk ▸ List.mem_cons_self _ _))

theorem ringGet?_foldSet_mem (hs : List Nat) (v : Nat)
    (r : List (Nat × Nat)) (k : Nat) (h : k ∈ hs) :
    ringGet? (hs.foldl (fun r h => ringSet r h v) r) k = some v := by
  induction hs generalizing r with
  | nil => simp at h
  | cons h0 t ih =>
    rw [List.foldl_cons]
    by_cases hm : k ∈ t
    · exact ih _ hm
    · have hk : k = h0 := by
        rcases List.mem_cons.mp h with h' | h'
        · exact h'
        · exact absurd h' hm
      rw [ringGet?_foldSet_not_mem t v _ k hm, hk]
      exact ringGet?_ringSet_self r h0 v

/-- The value renumbering `RemoveShard` applies to ring entries. -/
def remapValue (idx : Int) (v : Nat) : Nat :=
  if (v : Int) > idx then v - 1 else v

theorem ringGet?_cons (k0 v0 : Nat) (t : List (Nat × Nat)) (k : Nat) :
    ringGet? ((k0, v0) :: t) k = if k0 = k then some v0 else ringGet? t k := rfl

theorem ringGet?_remap (r : List (Nat × Nat)) (idx : Int) (k : Nat) :
    ringGet? (r.map (fun kv => if (kv.2 : Int) > idx then (kv.1, kv.2 - 1) else kv)) k
      = (ringGet? r k).map (remapValue idx) := by
  induction r with
  | nil => rfl
  | cons kv t ih =>
    obtain ⟨k0, v0⟩ := kv
    rw [List.map_cons]
    by_cases hk0 : k0 = k
    · by_cases hv : (v0 : Int) > idx
      · simp only [if_pos hv]
        rw [ringGet?_cons, ringGet?_cons, if_pos hk0, if_pos hk0]
        simp [remapValue, hv]
      · simp only [if_neg hv]
        rw [ringGet?_cons, ringGet?_cons, if_pos hk0, if_pos hk0]
        simp [remapValue, hv]
    · by_cases hv : (v0 : Int) > idx
      · simp only [if_pos hv]
        rw [ringGet?_cons, ringGet?_cons, if_neg hk0, if_neg hk0, ih]
      · simp only [if_neg hv]
        rw [ringGet?_cons, ringGet?_cons, if_neg hk0, if_neg hk0, ih]

/-- Characterisation of `RemoveShard`'s keep/delete loop: when a Boolean
classifier `o` separates positions whose current ring value differs from
`index` (kept) from positions mapped exactly to `index`, each of the
latter occurring at most once, the loop keeps exactly the `o`-positions
in order and preserves the ring entries of every `o`-position. -/
theorem removeFold_spec (idx : Int) (o : Nat → Bool) :
    ∀ (ks : List Nat) (built : List Nat) (r : List (Nat × Nat)),
      (∀ h ∈ ks, o h = true → (ringGet r h : Int) ≠ idx) →
      (∀ h ∈ ks, o h = false → (ringGet r h : Int) = idx) →
      (∀ h ∈ ks, o h = false → ks.count h ≤ 1) →
      (∀ h h' : Nat, o h = true → o h' = false → h ≠ h') →
      (ks.foldl (removeStep idx) (built, r)).1 = built ++ ks.filter o ∧
      (∀ h : Nat, o h = true →
        ringGet? (ks.foldl (removeStep idx) (built, r)).2 h = ringGet? r h) := by
  intro ks
  induction ks with
  | nil => exact fun built r _ _ _ _ => ⟨by simp, fun h _ => rfl⟩
  | cons h0 t ih =>
    intro built r hold hnew hcnt hsep
    rcases ho : o h0 with _ | _
    · -- h0 is deleted: its ring value is idx
      have hval : (ringGet r h0 : Int) = idx := hnew h0 (List.mem_cons_self _ _) ho
      have hstep : removeStep idx (built, r) h0 = (built, ringDel r h0) := by
        unfold removeStep
        rw [if_neg (by simpa using hval)]
      rw [List.foldl_cons, hstep]
      have hnotmem : h0 ∉ t := by
        intro hm
        have := hcnt h0 (List.mem_cons_self _ _) ho
        rw [List.count_cons_self] at this
        have : t.count h0 = 0 := by omega
        exact absurd (List.count_pos_iff_mem.mpr hm) (by omega)
      have ihspec := ih built (ringDel r h0)
        (fun h hm hh => by
          rw [ringGet_eq_getD, ringGet?_ringDel_ne r h0 h (hsep h h0 hh ho),
            ← ringGet_eq_getD]
          exact hold h (List.mem_cons_of_mem _ hm) hh)
        (fun h hm hh => by
          have hne : h ≠ h0 := fun heq => hnotmem (heq ▸ hm)
          rw [ringGet_eq_getD, ringGet?_ringDel_ne r h0 h hne, ← ringGet_eq_getD]
          exact hnew h (List.mem_cons_of_mem _ hm) hh)
        (fun h hm hh => le_trans (List.count_le_count_cons h h0 t) (hcnt h (List.mem_cons_of_mem _ hm) hh))
        hsep
      refine ⟨?_, ?_⟩
      · rw [ihspec.1, List.filter_cons, ho]
        simp
      · intro h hh
        rw [ihspec.2 h hh, ringGet?_ringDel_ne r h0 h (hsep h h0 hh ho)]
    · -- h0 is kept: its ring value differs from idx
      have hval : (ringGet r h0 : Int) ≠ idx := hold h0 (List.mem_cons_self _ _) ho
      have hstep : removeStep idx (built, r) h0 = (built ++ [h0], r) := by
        unfold removeStep
        rw [if_pos (by simpa using hval)]
      rw [List.foldl_cons, hstep]
      have ihspec := ih (built ++ [h0]) r
        (fun h hm hh => hold h (List.mem_cons_of_mem _ hm) hh)
        (fun h hm hh => hnew h (List.mem_cons_of_mem _ hm) hh)
        (fun h hm hh => le_trans (List.count_le_count_cons h h0 t) (hcnt h (List.mem_cons_of_mem _ hm) hh))
        hsep
      refine ⟨?_, ihspec.2⟩
      rw [ihspec.1, List.filter_cons, ho]
      simp

theorem ringSearch_getD_mem (keys : List Nat) (hash : Nat) (h : keys ≠ []) :
    keys.getD (if ringSearch keys hash = keys.length then 0
      else ringSearch keys hash) 0 ∈ keys := by
  by_cases he : ringSearch keys hash = keys.length
  · rw [if_pos he]
    have h0 : 0 < keys.length := List.length_pos.mpr h
    rw [List.getD_eq_getElem keys 0 h0]
    exact List.getElem_mem _
  · rw [if_neg he]
    have hle : ringSearch keys hash ≤ keys.length := List.findIdx_le_length _
    have hlt : ringSearch keys hash < keys.length := lt_of_le_of_ne hle he
    rw [List.getD_eq_getElem keys 0 hlt]
    exact List.getElem_mem _

theorem chGetShardIndex_congr (c c' : ConsistentHashSharder)
    (hs : c'.shards = c.shards) (hk : c'.keys = c.keys)
    (hr : ∀ h ∈ c.keys, ringGet c'.ring h = ringGet c.ring h)
    (hempty : c.keys = [] → c.shards.length ≤ 1) (k : Key) :
    chGetShardIndex c' k = chGetShardIndex c k ∧
    chGetShard c' k = chGetShard c k := by
  unfold chGetShardIndex chGetShard
  rw [hs, hk]
  by_cases h0 : c.shards.length = 0
  · simp [h0]
  · by_cases h1 : c.shards.length = 1
    · simp [h0, h1]
    · have hkne : c.keys ≠ [] := by
        intro hnil
        have := hempty hnil
        omega
      simp only [h0, h1, if_false]
      have hmem := ringSearch_getD_mem c.keys (crc32 k) hkne
      rw [hr _ hmem]
      exact ⟨rfl, rfl⟩

/-- C5 amended: `GetShard` and `GetShardIndex` are pure functions of the
sharder state (so repeated calls with no topology change return identical
results, and `GetShard(k)` is the `shards` entry at `GetShardIndex(k)`);
and `AddShard` followed by `RemoveShard` of that same shard restores
`GetShardIndex` and `GetShard` for every key, provided the added shard's
virtual-node hashes are pairwise distinct and do not collide with any
existing ring position — without that freshness proviso the restoration
claim is false (`addShard_removeShard_does_not_restore`). -/
theorem chAddShard_chRemoveShard_restores (c : ConsistentHashSharder) (b : Nat)
    (hsorted : c.keys.Sorted (· ≤ ·))
    (hring : ∀ h ∈ c.keys,
      (ringGet? c.ring h).getD c.shards.length < c.shards.length)
    (hfresh : ∀ h ∈ virtualHashes c.replicas c.shards.length, h ∉ c.keys)
    (hnodup : (virtualHashes c.replicas c.shards.length).Nodup)
    (hempty : c.keys = [] → c.shards.length ≤ 1) :
    (∀ k : Key, c.shards ≠ [] →
        chGetShard c k = c.shards.get? (chGetShardIndex c k).toNat) ∧
    ∃ c', chRemoveShard (chAddShard c b) (c.shards.length : Int) = .ok c' ∧
      c'.shards = c.shards ∧ c'.keys = c.keys ∧
      (∀ k : Key, chGetShardIndex c' k = chGetShardIndex c k ∧
                  chGetShard c' k = chGetShard c k) := by
  have hvals : ∀ h ∈ c.keys, ∃ v, ringGet? c.ring h = some v ∧
      v < c.shards.length := by
    intro h hm
    have := hring h hm
    rcases hf : ringGet? c.ring h with _ | v
    · rw [hf] at this
      simp at this
    · rw [hf] at this
      exact ⟨v, rfl, by simpa using this⟩
  constructor
  · intro k hne
    unfold chGetShard chGetShardIndex
    by_cases h0 : c.shards.length = 0
    · exact absurd (List.length_eq_zero.mp h0) hne
    · by_cases h1 : c.shards.length = 1
      · simp [h0, h1]
      · simp only [h0, h1, if_false]
        rw [Int.toNat_natCast]
  · set L := c.shards.length with hL
    set newHs := virtualHashes c.replicas L with hnewHs
    set ringAdd := newHs.foldl (fun r h => ringSet r h L) c.ring with hringAdd
    set keysSorted := List.insertionSort (· ≤ ·) (c.keys ++ newHs) with hkeysSorted
    have hadd : chAddShard c b =
        ⟨c.shards ++ [b], c.replicas, ringAdd, keysSorted⟩ := rfl
    -- membership in the sorted key list
    have hperm : keysSorted.Perm (c.keys ++ newHs) :=
      List.perm_insertionSort _ _
    have hmem_iff : ∀ h : Nat, h ∈ keysSorted ↔ (h ∈ c.keys ∨ h ∈ newHs) := by
      intro h
      rw [hperm.mem_iff, List.mem_append]
    -- the keep/delete classifier
    set o : Nat → Bool := fun h => decide (h ∈ c.keys) with ho
    have hsep : ∀ h h' : Nat, o h = true → o h' = false → h ≠ h' := by
      intro h h' hh hh' heq
      rw [ho] at hh hh'
      rw [heq] at hh
      rw [hh] at hh'
      exact Bool.noConfusion hh'
    have hold : ∀ h ∈ keysSorted, o h = true → (ringGet ringAdd h : Int) ≠ (L : Int) := by
      intro h hm hh
      have hmemk : h ∈ c.keys := of_decide_eq_true hh
      have hnotnew : h ∉ newHs := fun hmn => hfresh h hmn hmemk
      obtain ⟨v, hv, hvlt⟩ := hvals h hmemk
      rw [ringGet_eq_getD, hringAdd, ringGet?_foldSet_not_mem newHs L c.ring h hnotnew, hv]
      simp only [Option.getD_some]
      omega
    have hnew : ∀ h ∈ keysSorted, o h = false → (ringGet ringAdd h : Int) = (L : Int) := by
      intro h hm hh
      have hnotk : h ∉ c.keys := by
        intro hk
        have hoh : o h = true := decide_eq_true hk
        rw [hoh] at hh
        exact Bool.noConfusion hh
      have hmn : h ∈ newHs := by
        rcases (hmem_iff h).mp hm with hk | hn
        · exact absurd hk hnotk
        · exact hn
      rw [ringGet_eq_getD, hringAdd, ringGet?_foldSet_mem newHs L c.ring h hmn]
      rfl
    have hcnt : ∀ h ∈ keysSorted, o h = false → keysSorted.count h ≤ 1 := by
      intro h hm hh
      have hnotk : h ∉ c.keys := by
        intro hk
        have hoh : o h = true := decide_eq_true hk
        rw [hoh] at hh
        exact Bool.noConfusion hh
      rw [hperm.count_eq, List.count_append]
      rw [List.count_eq_zero.mpr hnotk]
      have := List.nodup_iff_count_le_one.mp hnodup h
      omega
    have hspec := removeFold_spec (L : Int) o keysSorted [] ringAdd hold hnew hcnt hsep
    -- the kept keys are exactly the original ones
    have hkeys_eq : keysSorted.filter o = c.keys := by
      have hpf : (keysSorted.filter o).Perm ((c.keys ++ newHs).filter o) :=
        hperm.filter o
      have hfa : (c.keys ++ newHs).filter o = c.keys := by
        rw [List.filter_append]
        have h1 : c.keys.filter o = c.keys :=
          List.filter_eq_self.mpr (fun a ha => decide_eq_true ha)
        have h2 : newHs.filter o = [] := by
          apply List.filter_eq_nil.mpr
          intro a ha
          simp only [ho, decide_eq_true_eq]
          exact hfresh a ha
        rw [h1, h2, List.append_nil]
      rw [hfa] at hpf
      have hsorted1 : (keysSorted.filter o).Sorted (· ≤ ·) :=
        (List.sorted_insertionSort _ _).filter o
      exact List.eq_of_perm_of_sorted hpf hsorted1 hsorted
    -- evaluate chRemoveShard
    have hguard : ¬ ((L : Int) < 0 ∨ (L : Int) ≥ ((chAddShard c b).shards.length : Int)) := by
      rw [hadd]
      simp only [List.length_append, List.length_cons, List.length_nil]
      omega
    set step := keysSorted.foldl (removeStep (L : Int)) ([], ringAdd) with hstepDef
    set newRing := step.2.map
      (fun kv => if (kv.2 : Int) > (L : Int) then (kv.1, kv.2 - 1) else kv) with hnewRingDef
    have hshardsEq : (c.shards ++ [b]).take ((L : Int)).toNat ++
        (c.shards ++ [b]).drop (((L : Int)).toNat + 1) = c.shards := by
      rw [Int.toNat_natCast]
      have htake : (c.shards ++ [b]).take L = c.shards := by
        rw [hL]
        exact List.take_left c.shards [b]
      have hdrop : (c.shards ++ [b]).drop (L + 1) = [] := by
        apply List.drop_eq_nil_of_le
        simp [hL]
      rw [htake, hdrop, List.append_nil]
    have hkeysEq : step.1 = c.keys := by
      rw [hspec.1, List.nil_append, hkeys_eq]
    have hremove : chRemoveShard (chAddShard c b) (L : Int) =
        .ok ⟨c.shards, c.replicas, newRing, c.keys⟩ := by
      unfold chRemoveShard
      rw [if_neg hguard]
      have hbody : ((chAddShard c b).keys.foldl (removeStep (L : Int))
          ([], (chAddShard c b).ring)) = step := by
        rw [hadd, hstepDef]
      rw [hbody]
      rw [show (chAddShard c b).shards = c.shards ++ [b] from rfl,
        show (chAddShard c b).replicas = c.replicas from rfl,
        hshardsEq]
      dsimp only
      rw [hkeysEq]
    have hringEq : ∀ h ∈ c.keys, ringGet newRing h = ringGet c.ring h := by
      intro h hm
      obtain ⟨v, hv, hvlt⟩ := hvals h hm
      have hoh : o h = true := decide_eq_true hm
      have hpres : ringGet? step.2 h = some v := by
        rw [hstepDef, hspec.2 h hoh, hringAdd,
          ringGet?_foldSet_not_mem newHs L c.ring h (fun hmn => hfresh h hmn hm), hv]
      rw [ringGet_eq_getD, ringGet_eq_getD, hv, hnewRingDef,
        ringGet?_remap step.2 (L : Int) h, hpres]
      have : remapValue (L : Int) v = v := by
        unfold remapValue
        rw [if_neg (by omega)]
      rw [Option.map_some', this]
    exact ⟨⟨c.shards, c.replicas, newRing, c.keys⟩, hremove, rfl, rfl,
      fun k => chGetShardIndex_congr c ⟨c.shards, c.replicas, newRing, c.keys⟩
        rfl rfl hringEq hempty k⟩

/-- A concrete two-shard consistent-hash state (replicas = 1, backends 10
and 11) whose next virtual-node hash is fresh. -/
def cW : ConsistentHashSharder :=
  chAddShard (chAddShard (newConsistentHashSharder 1) 10) 11

set_option maxRecDepth 8000 in
/-- Witness for `chAddShard_chRemoveShard_restores`: adding backend 12 to
`cW` and removing it restores the routing of key `"c"`, and `GetShard`
agrees with `GetShardIndex` on `cW`. -/
theorem chAddShard_chRemoveShard_restores_witness :
    (chRemoveShard (chAddShard cW 12) (cW.shards.length : Int)).toOption.map
        (fun c' => chGetShardIndex c' [99])
      = some (chGetShardIndex cW [99]) ∧
    chGetShard cW [99] = cW.shards.get? (chGetShardIndex cW [99]).toNat := by
  obtain ⟨hagree, c', hok, _, _, hall⟩ :=
    chAddShard_chRemoveShard_restores cW 12 (by decide) (by decide) (by decide)
      (by decide) (by decide)
  constructor
  · rw [hok]
    show some (chGetShardIndex c' [99]) = some (chGetShardIndex cW [99])
    rw [(hall [99]).1]
  · exact hagree [99] (by decide)

end GoCacheX
